import Mathlib

/-!
# Verification of the subset pack/unpack engine of `subsets_zusammenfuehren.py`

This file gives a shallow embedding of the pack/unpack engine:

* byte strings are `List Nat` (each entry a byte value `< 256` on the
  well-formed domain);
* `struct` packing/unpacking of the 3×`uint16le` face records is explicit;
* the XML element tree (`xml.etree.ElementTree`) is the inductive `Element`
  with attributes as an association list in insertion order and children in
  document order; `copy.deepcopy` of such a pure value is the identity;
* Python `assert` failures, `struct.error`, `ValueError` (`max` of an empty
  sequence, `int` of a non-numeric string) and `IndexError` are modelled by
  `Except`/`Option` failure;
* numeric attribute strings are read with `parseDec` (Python `int(...)` on the
  canonical decimal strings the program itself reads and writes; exotic forms
  such as leading whitespace, signs or underscores are outside the modelled
  domain) and written with `natStr` (Python `str` on a nonnegative int).
-/

namespace SZ

/-- Python slice `l[a:b]` for `0 ≤ a`, `0 ≤ b`: the elements with index in
`[a, min b (length l))`.  Out-of-range bounds clamp, exactly as in Python. -/
def sliceN (l : List Nat) (a b : Nat) : List Nat := (l.take b).drop a

/-- The two little-endian bytes of `struct.pack("H", n)`, for `n < 65536`. -/
def u16le (n : Nat) : List Nat := [n % 256, n / 256]

/-- A face record: three vertex indices (`facestruct = struct.Struct("1H1H1H")`). -/
abbrev Face := Nat × Nat × Nat

/-- The six bytes of an encoded face record. -/
def encFace (f : Face) : List Nat := u16le f.1 ++ u16le f.2.1 ++ u16le f.2.2

/-- `LSB_SEPARATOR = facestruct.pack(0, 0, 0)`. -/
def SEP : List Nat := [0, 0, 0, 0, 0, 0]

/-- Decode two little-endian bytes as a `uint16`. -/
def decodeU16 (b0 b1 : Nat) : Nat := b0 + 256 * b1

/-- `facestruct.iter_unpack`: decode a byte string as consecutive 6-byte face
records.  `none` models `struct.error` when the length is not a multiple of 6. -/
def iterUnpack : List Nat → Option (List Face)
  | [] => some []
  | b0 :: b1 :: b2 :: b3 :: b4 :: b5 :: rest =>
      (iterUnpack rest).map
        (fun fs => (decodeU16 b0 b1, decodeU16 b2 b3, decodeU16 b4 b5) :: fs)
  | _ => none

/-- `facestruct.pack` of one face: `struct.error` (`none`) unless each of the
three indices fits in 16 bits. -/
def packFace (f : Face) : Option (List Nat) :=
  if f.1 < 65536 ∧ f.2.1 < 65536 ∧ f.2.2 < 65536 then some (encFace f) else none

/-- The decimal digits of `n`, most significant first, with enough fuel. -/
def natDigitsCore (fuel : Nat) (n : Nat) : List Nat :=
  match fuel with
  | 0 => []
  | fuel' + 1 => if n < 10 then [n] else natDigitsCore fuel' (n / 10) ++ [n % 10]

/-- The decimal digits of `n`, most significant first. -/
def natDigits (n : Nat) : List Nat := natDigitsCore (n + 1) n

/-- The character of a decimal digit. -/
def digitChar (d : Nat) : Char := Char.ofNat (48 + d)

/-- Python `str` of a nonnegative integer. -/
def natStr (n : Nat) : String := ⟨(natDigits n).map digitChar⟩

/-- The value of a decimal digit character. -/
def digitVal (c : Char) : Option Nat :=
  if 48 ≤ c.toNat ∧ c.toNat ≤ 57 then some (c.toNat - 48) else none

/-- Accumulating decimal parser over a character list. -/
def parseDecCore : List Char → Nat → Option Nat
  | [], acc => some acc
  | c :: cs, acc => do
      let d ← digitVal c
      parseDecCore cs (acc * 10 + d)

/-- Python `int(s)` on the canonical (nonempty, all-digits) decimal strings this
program reads and writes; `none` models `ValueError`. -/
def parseDec (s : String) : Option Nat :=
  match s.data with
  | [] => none
  | cs => parseDecCore cs 0

/-- An `xml.etree.ElementTree.Element`: tag, attributes as an association list
in insertion order (a Python `dict`), children in document order. -/
inductive Element where
  | mk (tag : String) (attrib : List (String × String)) (children : List Element)

mutual

/-- Boolean equality of elements. -/
def Element.beq : Element → Element → Bool
  | .mk t a c, .mk t' a' c' => t == t' && a == a' && Element.beqList c c'

/-- Boolean equality of child lists. -/
def Element.beqList : List Element → List Element → Bool
  | [], [] => true
  | x :: xs, y :: ys => Element.beq x y && Element.beqList xs ys
  | [], _ :: _ => false
  | _ :: _, [] => false

end

mutual

theorem Element.beq_refl : (e : Element) → (Element.beq e e) = true
  | .mk t a c => by
    rw [Element.beq, Element.beqList_refl c]
    simp

theorem Element.beqList_refl : (l : List Element) → (Element.beqList l l) = true
  | [] => by rw [Element.beqList]
  | x :: xs => by
      rw [Element.beqList, Element.beq_refl x, Element.beqList_refl xs]
      rfl

end

mutual

theorem Element.eq_of_beq : {e₁ e₂ : Element} → Element.beq e₁ e₂ = true → e₁ = e₂
  | .mk t a c, .mk t' a' c', h => by
    rw [Element.beq] at h
    simp only [Bool.and_eq_true, beq_iff_eq] at h
    obtain ⟨⟨rfl, rfl⟩, hc⟩ := h
    rw [Element.eqList_of_beq hc]

theorem Element.eqList_of_beq : {l₁ l₂ : List Element} → Element.beqList l₁ l₂ = true → l₁ = l₂
  | [], [], _ => rfl
  | [], _ :: _, h => by rw [Element.beqList] at h; exact absurd h (by simp)
  | _ :: _, [], h => by rw [Element.beqList] at h; exact absurd h (by simp)
  | x :: xs, y :: ys, h => by
      rw [Element.beqList, Bool.and_eq_true] at h
      rw [Element.eq_of_beq h.1, Element.eqList_of_beq h.2]

end

instance : DecidableEq Element := fun e₁ e₂ =>
  if h : Element.beq e₁ e₂ = true then
    isTrue (Element.eq_of_beq h)
  else
    isFalse (fun hh => h (hh ▸ Element.beq_refl e₁))

/-- The tag of an element. -/
def Element.tag : Element → String
  | .mk t _ _ => t

/-- The attribute list of an element. -/
def Element.attrib : Element → List (String × String)
  | .mk _ a _ => a

/-- The child list of an element. -/
def Element.children : Element → List Element
  | .mk _ _ c => c

/-- `dict` lookup: first (unique) binding of the key. -/
def attrLookup (a : List (String × String)) (k : String) : Option String :=
  match a with
  | [] => none
  | (k', v) :: rest => if k' = k then some v else attrLookup rest k

/-- `dict` assignment `a[k] = v`: replace the binding in place, else append. -/
def attrSet (a : List (String × String)) (k v : String) : List (String × String) :=
  match a with
  | [] => [(k, v)]
  | (k', v') :: rest => if k' = k then (k, v) :: rest else (k', v') :: attrSet rest k v

/-- Lexicographic strict comparison of character lists by code point, the
order Python uses on strings. -/
def charListLt : List Char → List Char → Bool
  | [], [] => false
  | [], _ :: _ => true
  | _ :: _, [] => false
  | c :: cs, d :: ds =>
      if c.toNat < d.toNat then true
      else if d.toNat < c.toNat then false
      else charListLt cs ds

/-- Python `<` on strings. -/
def strLt (a b : String) : Bool := charListLt a.data b.data

/-- The comparison used by Python `sorted` on `dict.items()`: lexicographic on
the (name, value) pair. -/
def pairLe (a b : String × String) : Bool :=
  strLt a.1 b.1 || (a.1 == b.1 && (strLt a.2 b.2 || a.2 == b.2))

/-- Insert into a `pairLe`-sorted list. -/
def insertPair (x : String × String) : List (String × String) → List (String × String)
  | [] => [x]
  | y :: ys => if pairLe x y then x :: y :: ys else y :: insertPair x ys

/-- Python `sorted` on `dict.items()`: sort the attribute pairs by the total
order `pairLe` (insertion sort; any correct sort agrees on a total order). -/
def sortPairs : List (String × String) → List (String × String)
  | [] => []
  | x :: xs => insertPair x (sortPairs xs)

/-- The attribute part of the grouping key: `f"{key}={value},"` for every
attribute except `MeshI`/`MeshV`, in the order of the (sorted) input list. -/
def attribKey : List (String × String) → String
  | [] => ""
  | (k, v) :: rest =>
      (if k = "MeshI" ∨ k = "MeshV" then "" else k ++ "=" ++ v ++ ",") ++ attribKey rest

mutual

/-- `calc_subset_key`: attributes sorted by name/value, skipping `MeshI`/`MeshV`,
then each non-geometry child as `f"{child.tag}=["` + recursive key + `"]"`. -/
def calcSubsetKey : Element → String
  | .mk _ attrib children => attribKey (sortPairs attrib) ++ childrenKey children

/-- The child part of `calc_subset_key`, skipping `Vertex`/`Face` children. -/
def childrenKey : List Element → String
  | [] => ""
  | c :: rest =>
      (if c.tag = "Vertex" ∨ c.tag = "Face" then "" else
        c.tag ++ "=[" ++ calcSubsetKey c ++ "]") ++ childrenKey rest

end

/-! ## The binary-buffer (`orig_lsb_data is not None`) variant of `pack`/`unpack`

A subset record carries its descriptor node and the two `slice` objects into
the shared `.lsb` byte buffer that the main loop computes from the declared
`MeshV`/`MeshI` counts (source lines 207–220). -/

/-- One entry of the `Subset` namedtuple in binary mode: the descriptor node
and the vertex and triangle region slices `(start, stop)` into the buffer. -/
structure SubsetB where
  node : Element
  verts : Nat × Nat
  tris : Nat × Nat
deriving DecidableEq

/-- The distinct ways `pack` can die, kept apart so that claims about one
failure mode do not conflate it with the others. -/
inductive PackErr where
  /-- `IndexError`: `flush` reads `subsets[0]` of an empty group. -/
  | emptyGroup
  /-- the abort invariant `assert vert_idx_offset + num_vertices < 32768`. -/
  | assertFail
  /-- `struct.error` while unpacking or re-packing face records. -/
  | structError
deriving DecidableEq

/-- The mutable state of `pack`: running vertex-index offset, the two
accumulators, the output buffer and the output node list. -/
structure PackSt where
  off : Nat
  vdata : List Nat
  tdata : List Nat
  out : List Nat
  nodes : List Element
deriving DecidableEq

/-- `copy.deepcopy(node)` followed by the two `dict` assignments that set
`MeshV` and `MeshI` (in that order). -/
def setMeshVI (node : Element) (v i : Nat) : Element :=
  .mk node.tag (attrSet (attrSet node.attrib "MeshV" (natStr v)) "MeshI" (natStr i)) node.children

/-- The binary-mode branch of `flush` (source lines 39–46, 62–63): one output
node copied from `subsets[0]` — the first subset of the *whole group* — with
`MeshV`/`MeshI` recomputed from the accumulated byte lengths, the accumulators
drained into the output buffer, and the offset reset. -/
def flushBin (first : Element) (s : PackSt) : PackSt :=
  { off := 0
    vdata := []
    tdata := []
    out := s.out ++ s.vdata ++ s.tdata
    nodes := s.nodes ++ [setMeshVI first (s.vdata.length / 40) (s.tdata.length / 2)] }

/-- Re-encode faces with all three indices increased by `off`
(source lines 84–89); `none` is the `struct.error` on overflow past 16 bits. -/
def packShifted (off : Nat) : List Face → Option (List Nat)
  | [] => some []
  | f :: fs => do
      let b ← packFace (f.1 + off, f.2.1 + off, f.2.2 + off)
      let rest ← packShifted off fs
      pure (b ++ rest)

/-- One iteration of the `for subset in subsets` loop of `pack` in binary mode
(source lines 65–102): compute the vertex count from the slice, flush when the
ceiling would be hit, abort if it still is, append the vertex bytes, then
append the triangle bytes verbatim (offset 0) or as separator plus re-biased
records, and advance the offset. -/
def packStepBin (first : Element) (orig : List Nat) (s : PackSt) (sub : SubsetB) :
    Except PackErr PackSt :=
  let nv := (sub.verts.2 - sub.verts.1) / 40
  let s1 := if 32768 ≤ s.off + nv then flushBin first s else s
  if 32768 ≤ s1.off + nv then .error .assertFail
  else
    let vd := s1.vdata ++ sliceN orig sub.verts.1 sub.verts.2
    if s1.off = 0 then
      .ok { s1 with
            vdata := vd
            tdata := s1.tdata ++ sliceN orig sub.tris.1 sub.tris.2
            off := s1.off + nv }
    else
      match iterUnpack (sliceN orig sub.tris.1 sub.tris.2) with
      | none => .error .structError
      | some fs =>
          match packShifted s1.off fs with
          | none => .error .structError
          | some bs =>
              .ok { s1 with
                    vdata := vd
                    tdata := s1.tdata ++ SEP ++ bs
                    off := s1.off + nv }

/-- `pack(subsets, orig_lsb_data)` in binary mode (source lines 30–104): the
loop over the group followed by the unconditional final flush. -/
def packBin (subsets : List SubsetB) (orig : List Nat) :
    Except PackErr (List Element × List Nat) :=
  match subsets with
  | [] => .error .emptyGroup
  | first :: _ => do
      let s ← subsets.foldlM (packStepBin first.node orig) ⟨0, [], [], [], []⟩
      let s1 := flushBin first.node s
      .ok (s1.nodes, s1.out)

/-! ## The binary-buffer variant of `unpack` (source lines 107–144) -/

/-- The mutable state of the separator scan: the running vertex-index offset,
the byte position where the current segment starts, the output buffer and the
output node list. -/
structure UnpSt where
  voff : Nat
  segStart : Nat
  out : List Nat
  nodes : List Element
deriving DecidableEq

/-- The largest of the three indices of a face. -/
def face3max (f : Face) : Nat := max f.1 (max f.2.1 f.2.2)

/-- The largest index referenced by a list of faces (0 for `[]`; only used on
nonempty lists). -/
def facesMax (fs : List Face) : Nat := fs.foldr (fun f a => max (face3max f) a) 0

/-- `max(max(faceindexes) for faceindexes in facedata)`: `none` models the
`ValueError` Python raises on an empty sequence. -/
def maxIdx? (fs : List Face) : Option Nat :=
  if fs = [] then none else some (facesMax fs)

/-- Re-encode faces with all three indices decreased by `voff`
(source lines 130–135); `none` is the `struct.error` on a negative index. -/
def packUnshifted (voff : Nat) : List Face → Option (List Nat)
  | [] => some []
  | f :: fs =>
      if f.1 < voff ∨ f.2.1 < voff ∨ f.2.2 < voff then none
      else do
        let b ← packFace (f.1 - voff, f.2.1 - voff, f.2.2 - voff)
        let rest ← packUnshifted voff fs
        pure (b ++ rest)

/-- One iteration of the `for lsb_data_end in range(...)` scan of `unpack` in
binary mode (source lines 113–143): skip positions that are neither the region
end nor a separator window; at a boundary, decode the segment, take the
maximal referenced index, check it against the vertex-region *byte* length
(`assert max_vertex_index < (subset.verts.stop - subset.verts.start)`),
extract the vertex bytes from the running offset through that index, re-bias
the faces down, and emit one node with recomputed `MeshV`/`MeshI`. -/
def unpackStep (orig : List Nat) (sub : SubsetB) (st : UnpSt) (endPos : Nat) : Option UnpSt :=
  if endPos ≠ sub.tris.2 ∧ sliceN orig endPos (endPos + 6) ≠ SEP then
    some st
  else do
    let fs ← iterUnpack (sliceN orig st.segStart endPos)
    let m ← maxIdx? fs
    if m < sub.verts.2 - sub.verts.1 then
      let vbytes := sliceN orig (sub.verts.1 + 40 * st.voff) (sub.verts.1 + 40 * (m + 1))
      let fbytes ← packUnshifted st.voff fs
      some { voff := m + 1
             segStart := endPos + 6
             out := st.out ++ vbytes ++ fbytes
             nodes := st.nodes ++ [setMeshVI sub.node (m - st.voff + 1) (fs.length * 3)] }
    else none

/-- The scan positions `range(subset.tris.start, subset.tris.stop + 6, 6)`. -/
def scanEnds (sub : SubsetB) : List Nat :=
  List.range' sub.tris.1 ((sub.tris.2 + 6 - sub.tris.1 + 5) / 6) 6

/-- `unpack(subset, orig_lsb_data)` in binary mode (source lines 107–144). -/
def unpackBin (sub : SubsetB) (orig : List Nat) : Option (List Element × List Nat) := do
  let st ← (scanEnds sub).foldlM (unpackStep orig sub) ⟨0, sub.tris.1, [], []⟩
  pure (st.nodes, st.out)

/-! ## The bufferless (`orig_lsb_data is None`) variant of `pack`

In this mode the geometry lives in `Vertex`/`Face` child elements of the
descriptor tree, and `pack` mutates the original `Face` element objects in
place (source lines 90–101).  To make that aliasing observable in a pure
embedding, the `Face` elements of the input tree are carried by identity: a
heap maps an element id to the parsed value of its `i` attribute (the
`"a;b;c"` decimal triple), and the subsets and outputs hold lists of ids.
`Vertex` elements are opaque and likewise carried as ids. -/

/-- The heap of live `Face` element objects: id to parsed `i` triple. -/
abbrev FaceHeap := Nat → Face

/-- One entry of the `Subset` namedtuple in bufferless mode:
`Subset(subset_node, subset_node.findall("./Vertex"), subset_node.findall("./Face"))`,
with the geometry elements as ids. -/
structure SubsetX where
  node : Element
  verts : List Nat
  tris : List Nat

/-- One output subset of bufferless `pack`: the node built by `flush` (tag,
deep-copied attributes and non-geometry children of `subsets[0].node`) plus
the accumulated `Vertex` and `Face` element ids appended as its geometry
children, in order. -/
structure OutX where
  node : Element
  verts : List Nat
  tris : List Nat

/-- The state of bufferless `pack`: the face heap, a fresh-id allocator for
the separator copies, the offset, the two accumulators and the outputs. -/
structure PackStX where
  heap : FaceHeap
  fresh : Nat
  off : Nat
  vdata : List Nat
  tdata : List Nat
  outs : List OutX

/-- Point update of the face heap. -/
def heapSet (h : FaceHeap) (i : Nat) (f : Face) : FaceHeap :=
  fun j => if j = i then f else h j

/-- A face with all three indices increased by `o`. -/
def shiftFace (o : Nat) (f : Face) : Face := (f.1 + o, f.2.1 + o, f.2.2 + o)

/-- The in-place rewrite loop `for face_node in subset.tris: face_node.attrib["i"] = ...`
(source lines 92–100): each listed `Face` element object has its `i` attribute
replaced by the old triple shifted by `o`.  (No 16-bit bound applies here:
the indices are decimal strings, not `struct`-packed.) -/
def heapShiftAll (h : FaceHeap) (ids : List Nat) (o : Nat) : FaceHeap :=
  ids.foldl (fun h i => heapSet h i (shiftFace o (h i))) h

/-- The bufferless branch of `flush` (source lines 48–61): a fresh node with
the tag and deep-copied attributes of `subsets[0].node` (note: `MeshV`/`MeshI`
are *not* recomputed in this branch), its non-geometry children deep-copied,
and the accumulated geometry element ids appended. -/
def flushXml (first : Element) (s : PackStX) : PackStX :=
  { s with
    off := 0
    vdata := []
    tdata := []
    outs := s.outs ++
      [⟨.mk first.tag first.attrib
          (first.children.filter (fun c => !(c.tag == "Vertex" || c.tag == "Face"))),
        s.vdata, s.tdata⟩] }

/-- One iteration of the `for subset in subsets` loop of `pack` in bufferless
mode (source lines 65–102): at offset 0 the original `Face` element objects
are appended untouched; at a nonzero offset a fresh deep copy of
`XML_SEPARATOR` is appended, every original `Face` element of the subset is
rewritten in place with its indices shifted up, and those same (mutated)
objects are appended. -/
def packStepXml (first : Element) (s : PackStX) (sub : SubsetX) : Except PackErr PackStX :=
  let nv := sub.verts.length
  let s1 := if 32768 ≤ s.off + nv then flushXml first s else s
  if 32768 ≤ s1.off + nv then .error .assertFail
  else
    let s2 := { s1 with vdata := s1.vdata ++ sub.verts }
    if s2.off = 0 then
      .ok { s2 with tdata := s2.tdata ++ sub.tris, off := s2.off + nv }
    else
      .ok { s2 with
            heap := heapSet (heapShiftAll s2.heap sub.tris s2.off) s2.fresh (0, 0, 0)
            fresh := s2.fresh + 1
            tdata := s2.tdata ++ s2.fresh :: sub.tris
            off := s2.off + nv }

/-- `pack(subsets, None)` in bufferless mode (source lines 30–104), returning
the outputs together with the final face heap (the mutated input tree). -/
def packXml (subsets : List SubsetX) (heap0 : FaceHeap) (fresh0 : Nat) :
    Except PackErr (List OutX × FaceHeap × Nat) :=
  match subsets with
  | [] => .error .emptyGroup
  | first :: _ => do
      let s ← subsets.foldlM (packStepXml first.node) ⟨heap0, fresh0, 0, [], [], []⟩
      let s1 := flushXml first.node s
      .ok (s1.outs, s1.heap, s1.fresh)

/-! ## The main loop (binary path, source lines 207–252)

The orchestrator: slice each subset's regions from the running byte offset,
group by `calc_subset_key`, run `pack` once per group or `unpack` once per
subset, and check the byte-accounting invariant.  File discovery, parsing and
persistence stay outside the engine; `none` models any abort
(`assert`/`ValueError`/`struct.error`) before the result is handed to the
persistence collaborator. -/

/-- `int(subset_node.get(name, 0))`: the declared count attribute, defaulting
to `0` when absent. -/
def getCount (node : Element) (name : String) : Option Nat :=
  match attrLookup node.attrib name with
  | none => some 0
  | some s => parseDec s

/-- The slicing loop (source lines 207–220): walk the descriptors in order,
assigning each its vertex and triangle byte regions `[off, off + 40*MeshV)`
and `[off + 40*MeshV, off + 40*MeshV + 2*MeshI)`; returns the subsets and the
final offset (the expected total buffer length). -/
def buildSubsets : List Element → Nat → Option (List SubsetB × Nat)
  | [], off => some ([], off)
  | n :: rest, off =>
      match getCount n "MeshV", getCount n "MeshI" with
      | some mv, some mi =>
          (match buildSubsets rest (off + mv * 40 + mi * 2) with
            | none => none
            | some (subs, final) =>
                some (⟨n, (off, off + mv * 40), (off + mv * 40, off + mv * 40 + mi * 2)⟩ :: subs,
                  final))
      | _, _ => none

/-- Append a subset to its key's group, preserving first-seen key order and
within-key arrival order (`defaultdict` iteration order). -/
def insertGrouped (gs : List (String × List SubsetB)) (k : String) (s : SubsetB) :
    List (String × List SubsetB) :=
  match gs with
  | [] => [(k, [s])]
  | (k', l) :: rest =>
      if k' = k then (k', l ++ [s]) :: rest else (k', l) :: insertGrouped rest k s

/-- `subsets_by_key`: the groups in first-seen key order. -/
def groupByKey (subs : List SubsetB) : List (String × List SubsetB) :=
  subs.foldl (fun gs s => insertGrouped gs (calcSubsetKey s.node) s) []

/-- The unpack branch of the transform loop: `unpack` once per subset,
concatenating nodes and buffers (source lines 242–247). -/
def unpackAll : List SubsetB → List Nat → Option (List Element × List Nat)
  | [], _ => some ([], [])
  | s :: rest, orig =>
      match unpackBin s orig with
      | none => none
      | some (ns, ds) =>
          match unpackAll rest orig with
          | none => none
          | some (ns', ds') => some (ns ++ ns', ds ++ ds')

/-- The transform loop over the groups (source lines 236–247): `pack` once per
group, or `unpack` once per subset, concatenating results in group order. -/
def transformGroups (isPack : Bool) (orig : List Nat) :
    List (String × List SubsetB) → Option (List Element × List Nat)
  | [] => some ([], [])
  | (_, subs) :: rest =>
      match (if isPack then (packBin subs orig).toOption else unpackAll subs orig) with
      | none => none
      | some (ns, ds) =>
          match transformGroups isPack orig rest with
          | none => none
          | some (ns', ds') => some (ns ++ ns', ds ++ ds')

/-- `40 * int(attrib["MeshV"]) + 2 * int(attrib["MeshI"])` of one output node;
`none` models the `KeyError`/`ValueError` on a missing or malformed count. -/
def nodeSpan (n : Element) : Option Nat :=
  match attrLookup n.attrib "MeshV", attrLookup n.attrib "MeshI" with
  | some v, some i =>
      (match parseDec v, parseDec i with
        | some mv, some mi => some (40 * mv + 2 * mi)
        | _, _ => none)
  | _, _ => none

/-- The sum of the declared byte spans of a node list. -/
def totalSpan : List Element → Option Nat
  | [] => some 0
  | n :: rest =>
      match nodeSpan n, totalSpan rest with
      | some a, some b => some (a + b)
      | _, _ => none

/-- The binary path of the per-file main loop (source lines 207–252):
build the slices, run the pre-check `if lsb_data: assert lsb_offset == len(lsb_data)`
— note the Python truthiness test: an *empty* buffer skips the check — then
transform each group and check the byte-accounting invariant
`assert len(new_lsb_data) == sum(40 * MeshV + 2 * MeshI)` before the result is
accepted.  `some` is a result handed onward (possibly reported as "no
changes"); `none` is an abort with nothing persisted.  An empty descriptor
list never reaches this path (`if not subset_nodes: continue`). -/
def mainBinary (isPack : Bool) (nodes : List Element) (lsb : List Nat) :
    Option (List Element × List Nat) :=
  if nodes = [] then none
  else
    match buildSubsets nodes 0 with
    | none => none
    | some (subs, total) =>
        if lsb ≠ [] ∧ total ≠ lsb.length then none
        else
          match transformGroups isPack lsb (groupByKey subs) with
          | none => none
          | some (newNodes, newData) =>
              match totalSpan newNodes with
              | none => none
              | some t => if newData.length = t then some (newNodes, newData) else none

/-- Equality on `Except` results is decidable. -/
instance {ε α : Type} [DecidableEq ε] [DecidableEq α] : DecidableEq (Except ε α) := fun x y =>
  match x, y with
  | .ok u, .ok v =>
      if h : u = v then isTrue (by rw [h]) else isFalse (by intro hh; cases hh; exact h rfl)
  | .error u, .error v =>
      if h : u = v then isTrue (by rw [h]) else isFalse (by intro hh; cases hh; exact h rfl)
  | .ok _, .error _ => isFalse (by intro hh; cases hh)
  | .error _, .ok _ => isFalse (by intro hh; cases hh)

/-! ## Concrete fixtures for the worked examples

Small byte buffers and descriptor nodes on which the engine is run
concretely: a 2-vertex and a 3-vertex subset sharing one buffer, a declared
3-vertex subset whose single face references only indices 0 and 1, a
composite with vertex counts 10 and 15 joined by one separator, and the
degenerate empty-buffer descriptors. -/

/-- Descriptor of a 2-vertex, 1-face subset. -/
def fixNodeA : Element := .mk "SubSet" [("MeshV", "2"), ("MeshI", "3")] []

/-- Descriptor of a 3-vertex, 1-face subset. -/
def fixNodeB : Element := .mk "SubSet" [("MeshV", "3"), ("MeshI", "3")] []

/-- A buffer holding a 2-vertex subset (face `(0,1,1)`) followed by a
3-vertex subset (face `(0,1,2)`): every declared vertex is referenced. -/
def fixOrig : List Nat :=
  List.replicate 80 5 ++ encFace (0, 1, 1) ++ (List.replicate 120 7 ++ encFace (0, 1, 2))

/-- The 2-vertex subset of `fixOrig`. -/
def fixSubA : SubsetB := ⟨fixNodeA, (0, 80), (80, 86)⟩

/-- The 3-vertex subset of `fixOrig`. -/
def fixSubB : SubsetB := ⟨fixNodeB, (86, 206), (206, 212)⟩

/-- A buffer holding a 3-vertex subset whose only face references indices
0 and 1 (vertex 2 is dead weight), followed by a 2-vertex subset. -/
def cexOrig : List Nat :=
  List.replicate 120 7 ++ encFace (0, 1, 0) ++ (List.replicate 80 5 ++ encFace (0, 1, 1))

/-- The 3-vertex subset of `cexOrig`: its face references only 0 and 1. -/
def cexSubA : SubsetB := ⟨fixNodeB, (0, 120), (120, 126)⟩

/-- The 2-vertex subset of `cexOrig`. -/
def cexSubB : SubsetB := ⟨fixNodeA, (126, 206), (206, 212)⟩

/-- Descriptor of the 25-vertex composite of the 10/15 scenario. -/
def scenNode : Element := .mk "SubSet" [("MeshV", "25"), ("MeshI", "9")] []

/-- A composite buffer: 25 vertex records, then a 1-face segment referencing
up to index 9, one separator, and a 1-face segment referencing up to 24 —
the packed form of two subsets with vertex counts 10 and 15. -/
def scenOrig : List Nat :=
  List.replicate 1000 0 ++ encFace (0, 1, 9) ++ SEP ++ encFace (10, 11, 24)

/-- The composite subset of `scenOrig`. -/
def scenSub : SubsetB := ⟨scenNode, (0, 1000), (1000, 1018)⟩

/-- A small single-segment buffer: 2 vertex records and one face. -/
def smallOrig : List Nat := List.replicate 80 0 ++ encFace (0, 1, 1)

/-- The single subset of `smallOrig`. -/
def smallSub : SubsetB := ⟨fixNodeA, (0, 80), (80, 86)⟩

/-- A descriptor with a non-geometry child whose `MeshV` is `"1"`. -/
def deepNodeA : Element := .mk "SubSet" [] [.mk "C" [("MeshV", "1")] []]

/-- A descriptor with a non-geometry child whose `MeshV` is `"2"`; its
grouping key equals `deepNodeA`'s, because `calc_subset_key` skips `MeshV`
at every level. -/
def deepNodeB : Element := .mk "SubSet" [] [.mk "C" [("MeshV", "2")] []]

/-- A 20000-vertex subset descriptor record carrying `deepNodeA`. -/
def deepSubA : SubsetB := ⟨deepNodeA, (0, 800000), (800000, 800000)⟩

/-- A second 20000-vertex subset, carrying `deepNodeB`. -/
def deepSubB : SubsetB := ⟨deepNodeB, (800000, 1600000), (1600000, 1600000)⟩

/-- A descriptor declaring one vertex and no triangles (40 bytes). -/
def n40 : Element := .mk "SubSet" [("MeshV", "1"), ("MeshI", "0")] []

/-- The composite `pack` produces from `cexSubA`/`cexSubB`: both vertex
regions, then the first face verbatim, a separator and the second face
re-biased by 3. -/
def cexPacked : List Nat :=
  List.replicate 120 7 ++ List.replicate 80 5 ++ encFace (0, 1, 0) ++ SEP ++ encFace (3, 4, 4)

/-! ## Generic lemmas about slices -/

theorem sliceN_nil (a b : Nat) : sliceN [] a b = [] := by
  simp [sliceN]

theorem sliceN_length (l : List Nat) (a b : Nat) :
    (sliceN l a b).length = min b l.length - a := by
  simp [sliceN]

theorem sliceN_length_of_le {l : List Nat} {a b : Nat} (hb : b ≤ l.length) :
    (sliceN l a b).length = b - a := by
  simp [sliceN_length, Nat.min_eq_left hb]

theorem sliceN_full (l : List Nat) : sliceN l 0 l.length = l := by
  simp [sliceN]

theorem sliceN_shift (x y : List Nat) (a b : Nat) :
    sliceN (x ++ y) (x.length + a) (x.length + b) = sliceN y a b := by
  simp [sliceN, List.take_append, List.drop_append]

theorem sliceN_prefix {x : List Nat} (y : List Nat) {b : Nat} (a : Nat) (hb : b ≤ x.length) :
    sliceN (x ++ y) a b = sliceN x a b := by
  simp [sliceN, List.take_append_eq_append_take, Nat.sub_eq_zero_of_le hb]

theorem sliceN_take (x : List Nat) (y : List Nat) (k : Nat) :
    sliceN (x ++ y) x.length (x.length + k) = y.take k := by
  have h := sliceN_shift x y 0 k
  simp only [Nat.add_zero, sliceN, List.drop_zero] at h
  exact h

theorem sliceN_subset (l : List Nat) (a b : Nat) : ∀ x ∈ sliceN l a b, x ∈ l := by
  intro x hx
  exact List.mem_of_mem_take (List.mem_of_mem_drop hx)

theorem sliceN_eq_nil_of_le {a b : Nat} (l : List Nat) (h : b ≤ a) :
    sliceN l a b = [] := by
  simp only [sliceN, List.drop_eq_nil_iff]
  calc (l.take b).length ≤ b := by simpa using List.length_take_le b l
  _ ≤ a := h

/-! ## `parseDec` and `natStr` are inverse on canonical decimals -/

theorem natDigitsCore_spec :
    ∀ fuel n, n < fuel →
      natDigitsCore fuel n ≠ [] ∧ (∀ d ∈ natDigitsCore fuel n, d < 10) ∧
      (natDigitsCore fuel n).foldl (fun a d => a * 10 + d) 0 = n := by
  intro fuel
  induction fuel with
  | zero => intro n hn; omega
  | succ fuel ih =>
      intro n hn
      by_cases h10 : n < 10
      · refine ⟨by simp [natDigitsCore, h10], ?_, by simp [natDigitsCore, h10]⟩
        intro d hd
        simp [natDigitsCore, h10] at hd
        omega
      · have hdiv : n / 10 < n := Nat.div_lt_self (by omega) (by omega)
        have hfuel : n / 10 < fuel := by omega
        obtain ⟨hne, hlt, hval⟩ := ih (n / 10) hfuel
        rw [natDigitsCore]
        simp only [if_neg h10]
        refine ⟨by simp, ?_, ?_⟩
        · intro d hd
          rcases List.mem_append.mp hd with h | h
          · exact hlt d h
          · simp at h; omega
        · rw [List.foldl_append, hval]
          simp only [List.foldl_cons, List.foldl_nil]
          omega

theorem digitVal_digitChar {d : Nat} (h : d < 10) : digitVal (digitChar d) = some d := by
  interval_cases d <;> decide

theorem parseDecCore_digits :
    ∀ (ds : List Nat) (acc : Nat), (∀ d ∈ ds, d < 10) →
      parseDecCore (ds.map digitChar) acc = some (ds.foldl (fun a d => a * 10 + d) acc) := by
  intro ds
  induction ds with
  | nil => intro acc _; rfl
  | cons d ds ih =>
      intro acc hall
      have hd : d < 10 := hall d (by simp)
      simp only [List.map_cons, parseDecCore, digitVal_digitChar hd, Option.bind_eq_bind,
        Option.some_bind, List.foldl_cons]
      exact ih (acc * 10 + d) (fun x hx => hall x (by simp [hx]))

theorem parseDec_natStr (n : Nat) : parseDec (natStr n) = some n := by
  obtain ⟨hne, hlt, hval⟩ := natDigitsCore_spec (n + 1) n (Nat.lt_succ_self n)
  have hdata : (natStr n).data = (natDigits n).map digitChar := rfl
  have hlt' : ∀ d ∈ natDigits n, d < 10 := hlt
  have hcore : parseDecCore ((natDigits n).map digitChar) 0 = some n := by
    rw [parseDecCore_digits (natDigits n) 0 hlt']
    exact congrArg some hval
  have hne' : (natDigits n).map digitChar ≠ [] := by
    simp only [ne_eq, List.map_eq_nil_iff]
    exact hne
  rw [parseDec, hdata]
  cases hm : (natDigits n).map digitChar with
  | nil => exact absurd hm hne'
  | cons c cs =>
      show parseDecCore (c :: cs) 0 = some n
      rw [← hm]
      exact hcore

/-! ## Encoding and decoding of face records -/

/-- The concatenated encoding of a face list. -/
def encAll : List Face → List Nat
  | [] => []
  | f :: fs => encFace f ++ encAll fs

/-- A face with all three indices decreased by `o`. -/
def unshiftFace (o : Nat) (f : Face) : Face := (f.1 - o, f.2.1 - o, f.2.2 - o)

theorem encFace_length (f : Face) : (encFace f).length = 6 := by
  simp [encFace, u16le]

theorem encAll_length (fs : List Face) : (encAll fs).length = 6 * fs.length := by
  induction fs with
  | nil => simp [encAll]
  | cons f fs ih => simp [encAll, encFace_length, ih]; ring

theorem encAll_append (fs gs : List Face) : encAll (fs ++ gs) = encAll fs ++ encAll gs := by
  induction fs with
  | nil => simp [encAll]
  | cons f fs ih => simp [encAll, ih]

theorem decodeU16_u16le (n : Nat) : decodeU16 (n % 256) (n / 256) = n := by
  simp [decodeU16]
  omega

theorem decodeFace_encFace (f : Face) :
    (decodeU16 (f.1 % 256) (f.1 / 256), decodeU16 (f.2.1 % 256) (f.2.1 / 256),
      decodeU16 (f.2.2 % 256) (f.2.2 / 256)) = f := by
  simp [decodeU16_u16le]

theorem iterUnpack_encFace_cons (f : Face) (rest : List Nat) :
    iterUnpack (encFace f ++ rest) = (iterUnpack rest).map (fun fs => f :: fs) := by
  obtain ⟨a, b, c⟩ := f
  show iterUnpack ([a % 256, a / 256] ++ [b % 256, b / 256] ++ [c % 256, c / 256] ++ rest) = _
  simp only [List.cons_append, List.nil_append, iterUnpack, decodeU16_u16le, List.append_eq]

theorem iterUnpack_encAll (fs : List Face) : iterUnpack (encAll fs) = some fs := by
  induction fs with
  | nil => rfl
  | cons f fs ih => rw [encAll, iterUnpack_encFace_cons, ih]; rfl

theorem u16le_decodeU16 {b0 b1 : Nat} (h0 : b0 < 256) :
    u16le (decodeU16 b0 b1) = [b0, b1] := by
  simp [u16le, decodeU16]
  omega

/-- A decoded byte string re-encodes to itself (bytes below 256). -/
theorem encAll_of_iterUnpack :
    ∀ (l : List Nat) (fs : List Face), iterUnpack l = some fs → (∀ b ∈ l, b < 256) →
      l = encAll fs := by
  intro l
  induction l using iterUnpack.induct with
  | case1 =>
      intro fs h _
      simp only [iterUnpack, Option.some.injEq] at h
      rw [← h]
      rfl
  | case2 b0 b1 b2 b3 b4 b5 rest ih =>
      intro fs h hb
      simp only [iterUnpack, Option.map_eq_some'] at h
      obtain ⟨fs', hfs', rfl⟩ := h
      have hrest : rest = encAll fs' := ih fs' hfs' (fun b hbb => hb b (by simp [hbb]))
      rw [encAll, encFace]
      rw [u16le_decodeU16 (hb b0 (by simp)), u16le_decodeU16 (hb b2 (by simp)),
        u16le_decodeU16 (hb b4 (by simp)), ← hrest]
      simp [decodeU16]
  | case3 l h1 h2 =>
      intro fs h _
      rw [iterUnpack.eq_def] at h
      split at h
      · exact absurd rfl h1
      · exact absurd rfl (h2 _ _ _ _ _ _ _)
      · exact absurd h (by simp)

/-- Decoded face indices fit in 16 bits (bytes below 256). -/
theorem iterUnpack_bounds :
    ∀ (l : List Nat) (fs : List Face), iterUnpack l = some fs → (∀ b ∈ l, b < 256) →
      ∀ f ∈ fs, f.1 < 65536 ∧ f.2.1 < 65536 ∧ f.2.2 < 65536 := by
  intro l
  induction l using iterUnpack.induct with
  | case1 =>
      intro fs h _
      simp only [iterUnpack, Option.some.injEq] at h
      rw [← h]
      simp
  | case2 b0 b1 b2 b3 b4 b5 rest ih =>
      intro fs h hb f hf
      simp only [iterUnpack, Option.map_eq_some'] at h
      obtain ⟨fs', hfs', rfl⟩ := h
      rcases List.mem_cons.mp hf with rfl | hmem
      · have h0 := hb b0 (by simp)
        have h1 := hb b1 (by simp)
        have h2 := hb b2 (by simp)
        have h3 := hb b3 (by simp)
        have h4 := hb b4 (by simp)
        have h5 := hb b5 (by simp)
        simp only [decodeU16]
        omega
      · exact ih fs' hfs' (fun b hbb => hb b (by simp [hbb])) f hmem
  | case3 l h1 h2 =>
      intro fs h _
      rw [iterUnpack.eq_def] at h
      split at h
      · exact absurd rfl h1
      · exact absurd rfl (h2 _ _ _ _ _ _ _)
      · exact absurd h (by simp)

theorem encFace_eq_SEP_iff (f : Face) : encFace f = SEP ↔ f = (0, 0, 0) := by
  constructor
  · intro h
    simp only [encFace, u16le, SEP, List.cons_append, List.nil_append, List.cons.injEq,
      and_true] at h
    obtain ⟨h1, h2, h3, h4, h5, h6⟩ := h
    have e1 : f.1 = 0 := by omega
    have e2 : f.2.1 = 0 := by omega
    have e3 : f.2.2 = 0 := by omega
    cases f with
    | mk a bc => cases bc with
      | mk b c =>
          simp only at e1 e2 e3
          rw [e1, e2, e3]
  · intro h
    rw [h]
    rfl

/-! ## Shifting and re-packing of face lists -/

theorem packFace_eq {f : Face} (h1 : f.1 < 65536) (h2 : f.2.1 < 65536) (h3 : f.2.2 < 65536) :
    packFace f = some (encFace f) := by
  simp [packFace, h1, h2, h3]

theorem packShifted_eq (off : Nat) :
    ∀ (fs : List Face),
      (∀ f ∈ fs, f.1 + off < 65536 ∧ f.2.1 + off < 65536 ∧ f.2.2 + off < 65536) →
      packShifted off fs = some (encAll (fs.map (shiftFace off))) := by
  intro fs
  induction fs with
  | nil => intro _; rfl
  | cons f fs ih =>
      intro hall
      obtain ⟨a, b, c⟩ := f
      obtain ⟨h1, h2, h3⟩ := hall (a, b, c) (by simp)
      rw [packShifted, packFace_eq h1 h2 h3, ih (fun g hg => hall g (by simp [hg]))]
      simp [encAll, shiftFace, encFace]

theorem packUnshifted_eq (voff : Nat) :
    ∀ (fs : List Face),
      (∀ f ∈ fs, voff ≤ f.1 ∧ voff ≤ f.2.1 ∧ voff ≤ f.2.2 ∧
        f.1 < 65536 ∧ f.2.1 < 65536 ∧ f.2.2 < 65536) →
      packUnshifted voff fs = some (encAll (fs.map (unshiftFace voff))) := by
  intro fs
  induction fs with
  | nil => intro _; rfl
  | cons f fs ih =>
      intro hall
      obtain ⟨a, b, c⟩ := f
      obtain ⟨h1, h2, h3, h4, h5, h6⟩ := hall (a, b, c) (by simp)
      have h1' : voff ≤ a := h1
      have h2' : voff ≤ b := h2
      have h3' : voff ≤ c := h3
      have h4' : a < 65536 := h4
      have h5' : b < 65536 := h5
      have h6' : c < 65536 := h6
      rw [packUnshifted]
      rw [if_neg (show ¬(a < voff ∨ b < voff ∨ c < voff) by omega)]
      rw [packFace_eq (show a - voff < 65536 by omega) (show b - voff < 65536 by omega)
        (show c - voff < 65536 by omega), ih (fun g hg => hall g (by simp [hg]))]
      simp [encAll, unshiftFace, encFace]

/-! ## The maximal referenced index -/

theorem face3max_shift (o : Nat) (f : Face) : face3max (shiftFace o f) = face3max f + o := by
  simp [face3max, shiftFace]
  omega

theorem facesMax_cons (f : Face) (fs : List Face) :
    facesMax (f :: fs) = max (face3max f) (facesMax fs) := rfl

theorem le_facesMax_of_mem {fs : List Face} {f : Face} (h : f ∈ fs) :
    face3max f ≤ facesMax fs := by
  induction fs with
  | nil => cases h
  | cons g gs ih =>
      rcases List.mem_cons.mp h with rfl | hmem
      · rw [facesMax_cons]; omega
      · rw [facesMax_cons]; have := ih hmem; omega

theorem facesMax_le {fs : List Face} {m : Nat} (h : ∀ f ∈ fs, face3max f ≤ m) :
    facesMax fs ≤ m := by
  induction fs with
  | nil => simp [facesMax]
  | cons g gs ih =>
      rw [facesMax_cons]
      have h1 := h g (by simp)
      have h2 := ih (fun f hf => h f (by simp [hf]))
      omega

theorem facesMax_shift {fs : List Face} (o : Nat) (h : fs ≠ []) :
    facesMax (fs.map (shiftFace o)) = facesMax fs + o := by
  induction fs with
  | nil => exact absurd rfl h
  | cons f fs ih =>
      cases fs with
      | nil => simp [facesMax, face3max_shift]
      | cons g gs =>
          rw [List.map_cons, facesMax_cons, face3max_shift, ih (by simp), facesMax_cons,
            max_add_add_right]
          rfl

theorem maxIdx?_eq {fs : List Face} (h : fs ≠ []) : maxIdx? fs = some (facesMax fs) := by
  simp [maxIdx?, h]

/-! ## Attribute bookkeeping -/

theorem attrLookup_attrSet_self (a : List (String × String)) (k v : String) :
    attrLookup (attrSet a k v) k = some v := by
  induction a with
  | nil => simp [attrSet, attrLookup]
  | cons p rest ih =>
      obtain ⟨k', v'⟩ := p
      by_cases h : k' = k
      · simp [attrSet, attrLookup, h]
      · simp [attrSet, attrLookup, h, ih]

theorem attrLookup_attrSet_ne (a : List (String × String)) {k k' : String} (h : k ≠ k')
    (v : String) : attrLookup (attrSet a k v) k' = attrLookup a k' := by
  induction a with
  | nil => simp [attrSet, attrLookup, h]
  | cons p rest ih =>
      obtain ⟨k'', v''⟩ := p
      by_cases hk : k'' = k
      · subst hk
        simp [attrSet, attrLookup, h]
      · simp [attrSet, attrLookup, hk, ih]

theorem meshV_setMeshVI (node : Element) (v i : Nat) :
    attrLookup (setMeshVI node v i).attrib "MeshV" = some (natStr v) := by
  show attrLookup (attrSet (attrSet node.attrib "MeshV" (natStr v)) "MeshI" (natStr i)) "MeshV" =
    some (natStr v)
  rw [attrLookup_attrSet_ne _ (by decide), attrLookup_attrSet_self]

theorem meshI_setMeshVI (node : Element) (v i : Nat) :
    attrLookup (setMeshVI node v i).attrib "MeshI" = some (natStr i) := by
  show attrLookup (attrSet (attrSet node.attrib "MeshV" (natStr v)) "MeshI" (natStr i)) "MeshI" =
    some (natStr i)
  rw [attrLookup_attrSet_self]

theorem nodeSpan_setMeshVI (node : Element) (v i : Nat) :
    nodeSpan (setMeshVI node v i) = some (40 * v + 2 * i) := by
  rw [nodeSpan]
  simp [meshV_setMeshVI, meshI_setMeshVI, parseDec_natStr]

/-! ## Characterizing a `pack` run in binary mode -/

/-- The vertex count `pack` computes for a subset from its slice. -/
def nvOf (sub : SubsetB) : Nat := (sub.verts.2 - sub.verts.1) / 40

/-- The vertex bytes of a subset. -/
def vbytes (orig : List Nat) (sub : SubsetB) : List Nat := sliceN orig sub.verts.1 sub.verts.2

/-- The triangle bytes of a subset. -/
def tbytes (orig : List Nat) (sub : SubsetB) : List Nat := sliceN orig sub.tris.1 sub.tris.2

/-- The decoded face records of a subset's triangle region. -/
def decTris (orig : List Nat) (sub : SubsetB) : List Face :=
  (iterUnpack (tbytes orig sub)).getD []

/-- The total vertex count of a group. -/
def sumNv : List SubsetB → Nat
  | [] => 0
  | s :: rest => nvOf s + sumNv rest

/-- The vertex bytes a run of subsets appends to the vertex accumulator. -/
def packTailV (orig : List Nat) : List SubsetB → List Nat
  | [] => []
  | s :: rest => vbytes orig s ++ packTailV orig rest

/-- The triangle bytes a run of subsets appends to the triangle accumulator
when the running offset `o` is already positive: separator, then the faces
re-biased by the offset at their turn. -/
def packTailT (orig : List Nat) (o : Nat) : List SubsetB → List Nat
  | [] => []
  | s :: rest =>
      SEP ++ encAll ((decTris orig s).map (shiftFace o)) ++ packTailT orig (o + nvOf s) rest

theorem packStepBin_pos (first : Element) (orig : List Nat) (st : PackSt) (sub : SubsetB)
    (hoff : 0 < st.off) (hlt : st.off + nvOf sub < 32768)
    (hdec : iterUnpack (tbytes orig sub) = some (decTris orig sub))
    (hbnd : ∀ f ∈ decTris orig sub, f.1 + st.off < 65536 ∧ f.2.1 + st.off < 65536 ∧
      f.2.2 + st.off < 65536) :
    packStepBin first orig st sub =
      .ok { st with vdata := st.vdata ++ vbytes orig sub,
                    tdata := st.tdata ++ SEP ++ encAll ((decTris orig sub).map (shiftFace st.off)),
                    off := st.off + nvOf sub } := by
  have hnv : (sub.verts.2 - sub.verts.1) / 40 = nvOf sub := rfl
  have hflush : ¬32768 ≤ st.off + nvOf sub := by omega
  have hzero : ¬st.off = 0 := by omega
  rw [packStepBin]
  simp only [hnv, if_neg hflush, if_neg hzero]
  rw [show sliceN orig sub.tris.1 sub.tris.2 = tbytes orig sub from rfl, hdec]
  simp only [packShifted_eq st.off _ hbnd]
  rfl

theorem packFold_pos (first : Element) (orig : List Nat) :
    ∀ (subs : List SubsetB) (st : PackSt),
      0 < st.off → st.off + sumNv subs < 32768 →
      (∀ sub ∈ subs, iterUnpack (tbytes orig sub) = some (decTris orig sub)) →
      (∀ sub ∈ subs, ∀ f ∈ decTris orig sub, face3max f < nvOf sub) →
      subs.foldlM (packStepBin first orig) st =
        .ok { off := st.off + sumNv subs,
              vdata := st.vdata ++ packTailV orig subs,
              tdata := st.tdata ++ packTailT orig st.off subs,
              out := st.out, nodes := st.nodes } := by
  intro subs
  induction subs with
  | nil =>
      intro st hoff hsum _ _
      simp only [sumNv, packTailV, packTailT, List.append_nil, Nat.add_zero, List.foldlM_nil]
      rfl
  | cons s rest ih =>
      intro st hoff hsum hdec hidx
      have hnv : st.off + nvOf s < 32768 := by
        have : 0 ≤ sumNv rest := Nat.zero_le _
        simp only [sumNv] at hsum
        omega
      have hbnd : ∀ f ∈ decTris orig s, f.1 + st.off < 65536 ∧ f.2.1 + st.off < 65536 ∧
          f.2.2 + st.off < 65536 := by
        intro f hf
        have h3 := hidx s (by simp) f hf
        have hle := le_facesMax_of_mem hf
        simp only [face3max] at h3 hle ⊢
        omega
      rw [List.foldlM_cons, packStepBin_pos first orig st s hoff hnv (hdec s (by simp)) hbnd]
      show rest.foldlM (packStepBin first orig) _ = _
      rw [ih _ (by simp; omega) (by simp [sumNv] at hsum ⊢; omega)
        (fun x hx => hdec x (by simp [hx])) (fun x hx => hidx x (by simp [hx]))]
      simp only [sumNv, packTailV, packTailT, List.append_assoc, Nat.add_assoc]

theorem packStepBin_first (first : Element) (orig : List Nat) (sub : SubsetB)
    (hlt : nvOf sub < 32768) :
    packStepBin first orig ⟨0, [], [], [], []⟩ sub =
      .ok ⟨nvOf sub, vbytes orig sub, tbytes orig sub, [], []⟩ := by
  have hnv : (sub.verts.2 - sub.verts.1) / 40 = nvOf sub := rfl
  have hflush : ¬32768 ≤ nvOf sub := by omega
  rw [packStepBin]
  simp only [hnv, Nat.zero_add, if_neg hflush, if_pos rfl, List.nil_append]
  rfl

/-- A whole `pack` run that never hits the ceiling: one output subset whose
vertex accumulator is the concatenation of all vertex regions and whose
triangle accumulator is the first region verbatim followed by
separator-prefixed re-biased regions. -/
theorem packBin_run (orig : List Nat) (s0 : SubsetB) (rest : List SubsetB)
    (hpos : 0 < nvOf s0) (hsum : sumNv (s0 :: rest) < 32768)
    (hdec : ∀ sub ∈ rest, iterUnpack (tbytes orig sub) = some (decTris orig sub))
    (hidx : ∀ sub ∈ rest, ∀ f ∈ decTris orig sub, face3max f < nvOf sub) :
    packBin (s0 :: rest) orig =
      .ok ([setMeshVI s0.node ((packTailV orig (s0 :: rest)).length / 40)
              ((tbytes orig s0 ++ packTailT orig (nvOf s0) rest).length / 2)],
           packTailV orig (s0 :: rest) ++ (tbytes orig s0 ++ packTailT orig (nvOf s0) rest)) := by
  have hnv0 : nvOf s0 < 32768 := by
    simp only [sumNv] at hsum
    omega
  rw [packBin]
  rw [List.foldlM_cons, packStepBin_first s0.node orig s0 hnv0]
  show Except.bind (rest.foldlM (packStepBin s0.node orig) _) _ = _
  rw [packFold_pos s0.node orig rest ⟨nvOf s0, vbytes orig s0, tbytes orig s0, [], []⟩ hpos
    (by simp only [sumNv] at hsum ⊢; omega) hdec hidx]
  rfl


/-! ## Well-formed slices and the ceiling invariant of `pack` -/

/-- An orchestrator-shaped vertex slice: ordered, inside the buffer, and a
whole number of 40-byte vertex records. -/
def WFv (orig : List Nat) (sub : SubsetB) : Prop :=
  sub.verts.1 ≤ sub.verts.2 ∧ sub.verts.2 ≤ orig.length ∧ 40 ∣ (sub.verts.2 - sub.verts.1)

instance (orig : List Nat) (sub : SubsetB) : Decidable (WFv orig sub) := by
  unfold WFv
  infer_instance

theorem vbytes_length {orig : List Nat} {sub : SubsetB} (h : WFv orig sub) :
    (vbytes orig sub).length = 40 * nvOf sub := by
  obtain ⟨h1, h2, h3⟩ := h
  rw [vbytes, sliceN_length_of_le h2, nvOf, Nat.mul_div_cancel' h3]

theorem packTailV_length (orig : List Nat) :
    ∀ (subs : List SubsetB), (∀ sub ∈ subs, WFv orig sub) →
      (packTailV orig subs).length = 40 * sumNv subs := by
  intro subs
  induction subs with
  | nil => intro _; simp [packTailV, sumNv]
  | cons s rest ih =>
      intro h
      rw [packTailV, List.length_append, vbytes_length (h s (by simp)),
        ih (fun x hx => h x (by simp [hx])), sumNv]
      ring

/-- An output node of a binary-mode flush carries a `MeshV` below the ceiling. -/
def GoodNode (n : Element) : Prop :=
  ∃ v, v < 32768 ∧ attrLookup n.attrib "MeshV" = some (natStr v)

/-- The running invariant of a `pack` run over well-formed subsets: the vertex
accumulator holds exactly `40 · offset` bytes, the offset is below the
ceiling, and every node flushed so far is good. -/
def PackInv (st : PackSt) : Prop :=
  st.vdata.length = 40 * st.off ∧ st.off < 32768 ∧ ∀ n ∈ st.nodes, GoodNode n

theorem PackInv_flushBin (first : Element) {st : PackSt} (h : PackInv st) :
    PackInv (flushBin first st) := by
  obtain ⟨hlen, hoff, hnodes⟩ := h
  refine ⟨by simp [flushBin], by simp [flushBin], ?_⟩
  intro n hn
  rw [flushBin] at hn
  simp only [List.mem_append, List.mem_singleton] at hn
  rcases hn with hn | rfl
  · exact hnodes n hn
  · refine ⟨st.vdata.length / 40, ?_, meshV_setMeshVI _ _ _⟩
    rw [hlen, Nat.mul_div_cancel_left _ (by norm_num)]
    exact hoff

theorem error_bind {ε α β : Type} (e : ε) (f : α → Except ε β) :
    ((Except.error e : Except ε α) >>= f) = Except.error e := rfl

theorem ok_bind {ε α β : Type} (a : α) (f : α → Except ε β) :
    ((Except.ok a : Except ε α) >>= f) = f a := rfl

theorem matchOpt_ne {α : Type} (x : Option α) (g : α → PackSt) :
    (match x with
      | none => (Except.error PackErr.structError : Except PackErr PackSt)
      | some bs => Except.ok (g bs)) ≠ Except.error PackErr.assertFail := by
  cases x with
  | none => intro hcon; cases hcon
  | some bs => intro hcon; cases hcon

theorem matchOpt_ok {α : Type} (x : Option α) (g : α → PackSt) (st' : PackSt) :
    (match x with
      | none => (Except.error PackErr.structError : Except PackErr PackSt)
      | some bs => Except.ok (g bs)) = Except.ok st' → ∃ bs, x = some bs ∧ st' = g bs := by
  cases x with
  | none => intro hcon; cases hcon
  | some bs =>
      intro hok
      injection hok with h
      exact ⟨bs, rfl, h.symm⟩

theorem packStepBin_inv (first : Element) (orig : List Nat) {st : PackSt} {sub : SubsetB}
    (hwf : WFv orig sub) (hnv : nvOf sub < 32768) (hinv : PackInv st) :
    packStepBin first orig st sub ≠ .error .assertFail ∧
    ∀ st', packStepBin first orig st sub = .ok st' → PackInv st' := by
  have hvb : (vbytes orig sub).length = 40 * nvOf sub := vbytes_length hwf
  rw [packStepBin]
  simp only [show (sub.verts.2 - sub.verts.1) / 40 = nvOf sub from rfl]
  by_cases hc : 32768 ≤ st.off + nvOf sub
  · obtain ⟨hlen1, hoff1, hnodes1⟩ := PackInv_flushBin first hinv
    have hoff0 : (flushBin first st).off = 0 := rfl
    have hassert : ¬32768 ≤ nvOf sub := by omega
    simp only [if_pos hc, hoff0, Nat.zero_add, if_neg hassert, if_pos rfl]
    refine ⟨(by intro hcon; cases hcon), ?_⟩
    intro st' hst'
    cases hst'
    refine ⟨?_, ?_, ?_⟩
    · show ((flushBin first st).vdata ++ vbytes orig sub).length = 40 * nvOf sub
      rw [List.length_append, hlen1, hoff0, hvb]
      ring
    · show nvOf sub < 32768
      omega
    · exact hnodes1
  · simp only [if_neg hc]
    by_cases hz : st.off = 0
    · simp only [if_pos hz]
      obtain ⟨hlen, hoff, hnodes⟩ := hinv
      refine ⟨(by intro hcon; cases hcon), ?_⟩
      intro st' hst'
      cases hst'
      refine ⟨?_, ?_, ?_⟩
      · show (st.vdata ++ vbytes orig sub).length = 40 * (st.off + nvOf sub)
        rw [List.length_append, hlen, hvb]
        ring
      · show st.off + nvOf sub < 32768
        omega
      · exact hnodes
    · simp only [if_neg hz]
      obtain ⟨hlen, hoff, hnodes⟩ := hinv
      cases hdec : iterUnpack (sliceN orig sub.tris.1 sub.tris.2) with
      | none => exact ⟨(by intro hcon; cases hcon), (by intro st' hst'; cases hst')⟩
      | some fs =>
          show (match packShifted st.off fs with
              | none => (Except.error PackErr.structError : Except PackErr PackSt)
              | some bs =>
                  Except.ok { st with
                              vdata := st.vdata ++ sliceN orig sub.verts.1 sub.verts.2
                              tdata := st.tdata ++ SEP ++ bs
                              off := st.off + nvOf sub }) ≠
              Except.error PackErr.assertFail ∧
            ∀ st', (match packShifted st.off fs with
              | none => (Except.error PackErr.structError : Except PackErr PackSt)
              | some bs =>
                  Except.ok { st with
                              vdata := st.vdata ++ sliceN orig sub.verts.1 sub.verts.2
                              tdata := st.tdata ++ SEP ++ bs
                              off := st.off + nvOf sub }) =
              Except.ok st' → PackInv st'
          cases hsh : packShifted st.off fs with
          | none => exact ⟨(by intro hcon; cases hcon), (by intro st' hst'; cases hst')⟩
          | some bs =>
              refine ⟨(by intro hcon; cases hcon), ?_⟩
              intro st' hst'
              cases hst'
              refine ⟨?_, ?_, ?_⟩
              · show (st.vdata ++ vbytes orig sub).length = 40 * (st.off + nvOf sub)
                rw [List.length_append, hlen, hvb]
                ring
              · show st.off + nvOf sub < 32768
                omega
              · exact hnodes

theorem packFold_inv (first : Element) (orig : List Nat) :
    ∀ (subs : List SubsetB) (st : PackSt),
      (∀ sub ∈ subs, WFv orig sub ∧ nvOf sub < 32768) → PackInv st →
      subs.foldlM (packStepBin first orig) st ≠ .error .assertFail ∧
      ∀ st', subs.foldlM (packStepBin first orig) st = .ok st' → PackInv st' := by
  intro subs
  induction subs with
  | nil =>
      intro st _ hinv
      refine ⟨(by intro hcon; cases hcon), ?_⟩
      intro st' hst'
      cases hst'
      exact hinv
  | cons s rest ih =>
      intro st hwf hinv
      obtain ⟨hw, hn⟩ := hwf s (by simp)
      obtain ⟨hne, hok⟩ := packStepBin_inv first orig hw hn hinv
      rw [List.foldlM_cons]
      cases hstep : packStepBin first orig st s with
      | error e =>
          refine ⟨?_, ?_⟩
          · rw [error_bind]
            intro hcon
            injection hcon with he
            exact hne (by rw [hstep, he])
          · intro st' hst'
            rw [error_bind] at hst'
            cases hst'
      | ok st1 =>
          have hinv1 : PackInv st1 := hok st1 hstep
          have hrec := ih st1 (fun x hx => hwf x (by simp [hx])) hinv1
          rw [ok_bind]
          exact hrec

/-! ## Characterizing the separator scan of `unpack` in binary mode -/

/-- The byte layout of a (possibly composite) triangle region: encoded
segments joined by separator records. -/
def segsTail : List (List Face) → List Nat
  | [] => []
  | g :: rest =>
      encAll g ++ (match rest with
        | [] => []
        | _ :: _ => SEP ++ segsTail rest)

/-- A scannable segment at running vertex offset `voff`: nonempty, no
separator-shaped face, 16-bit indices, all at or above the running offset,
and maximal index below the vertex-region byte length (the source's assert). -/
def GoodSeg (vlenB voff : Nat) (g : List Face) : Prop :=
  g ≠ [] ∧ facesMax g < vlenB ∧
  ∀ f ∈ g, f ≠ (0, 0, 0) ∧ f.1 < 65536 ∧ f.2.1 < 65536 ∧ f.2.2 < 65536 ∧
    voff ≤ f.1 ∧ voff ≤ f.2.1 ∧ voff ≤ f.2.2

/-- All segments are scannable, threading the running offset. -/
def GoodSegs (vlenB : Nat) : Nat → List (List Face) → Prop
  | _, [] => True
  | voff, g :: rest => GoodSeg vlenB voff g ∧ GoodSegs vlenB (facesMax g + 1) rest

instance (vlenB voff : Nat) (g : List Face) : Decidable (GoodSeg vlenB voff g) := by
  unfold GoodSeg
  infer_instance

instance instDecGoodSegs (vlenB : Nat) : (voff : Nat) → (Gs : List (List Face)) →
    Decidable (GoodSegs vlenB voff Gs)
  | _, [] => .isTrue trivial
  | voff, g :: rest =>
      letI : Decidable (GoodSegs vlenB (facesMax g + 1) rest) :=
        instDecGoodSegs vlenB (facesMax g + 1) rest
      inferInstanceAs (Decidable (GoodSeg vlenB voff g ∧ GoodSegs vlenB (facesMax g + 1) rest))

/-- The nodes the scan emits, one per segment. -/
def pieceNodes (node : Element) : Nat → List (List Face) → List Element
  | _, [] => []
  | voff, g :: rest =>
      setMeshVI node (facesMax g - voff + 1) (g.length * 3) ::
        pieceNodes node (facesMax g + 1) rest

/-- The bytes the scan emits: per segment, the vertex records from the running
offset through the maximal referenced index, then the re-based face records. -/
def pieceBytes (orig : List Nat) (vstart : Nat) : Nat → List (List Face) → List Nat
  | _, [] => []
  | voff, g :: rest =>
      sliceN orig (vstart + 40 * voff) (vstart + 40 * (facesMax g + 1)) ++
      encAll (g.map (unshiftFace voff)) ++ pieceBytes orig vstart (facesMax g + 1) rest

/-- The vertex offset after scanning all segments. -/
def lastVoff : Nat → List (List Face) → Nat
  | voff, [] => voff
  | _, g :: rest => lastVoff (facesMax g + 1) rest

theorem segsTail_nonempty_length (g : List Face) (rest : List (List Face)) :
    (segsTail (g :: rest)).length =
      6 * g.length + (match rest with | [] => 0 | _ :: _ => 6 + (segsTail rest).length) := by
  cases rest with
  | nil => simp [segsTail, encAll_length]
  | cons r rs =>
      simp [segsTail, encAll_length, SEP]
      omega

theorem six_dvd_segsTail (Gs : List (List Face)) : 6 ∣ (segsTail Gs).length := by
  induction Gs with
  | nil => simp [segsTail]
  | cons g rest ih =>
      rw [segsTail_nonempty_length]
      cases rest with
      | nil => exact ⟨g.length, rfl⟩
      | cons r rs =>
          obtain ⟨k, hk⟩ := ih
          refine ⟨g.length + 1 + k, ?_⟩
          have hred : (match r :: rs with
              | [] => 0
              | _ :: _ => 6 + (segsTail (r :: rs)).length) =
              6 + (segsTail (r :: rs)).length := rfl
          omega

/-- The 6-byte window at an aligned position inside an encoded segment. -/
theorem window_encFace (pre : List Nat) (f : Face) (rest : List Nat) :
    sliceN (pre ++ encFace f ++ rest) pre.length (pre.length + 6) = encFace f := by
  rw [List.append_assoc, sliceN_take]
  rw [List.take_append_eq_append_take, encFace_length]
  simp [List.take_of_length_le (le_of_eq (encFace_length f))]

/-- Skipping over the face records of a segment: every position sees a
non-separator window strictly before the region end, so the state is
unchanged. -/
theorem scan_skip (sub : SubsetB) (orig : List Nat) :
    ∀ (fs : List Face) (pre : List Nat) (st : UnpSt),
      (∀ f ∈ fs, f ≠ (0, 0, 0)) →
      orig = pre ++ encAll fs ++ sliceN orig (pre.length + 6 * fs.length) orig.length →
      pre.length + 6 * fs.length ≤ sub.tris.2 →
      (List.range' pre.length fs.length 6).foldlM (unpackStep orig sub) st = some st := by
  intro fs
  induction fs with
  | nil => intro pre st _ _ _; rfl
  | cons f fs ih =>
      intro pre st hne horig hlimit
      rw [show (f :: fs).length = fs.length + 1 from rfl, List.range'_succ, List.foldlM_cons]
      have hwindow : sliceN orig pre.length (pre.length + 6) = encFace f := by
        conv_lhs => rw [horig]
        rw [show pre ++ encAll (f :: fs) ++ _ =
          pre ++ encFace f ++ (encAll fs ++ sliceN orig (pre.length + 6 * (f :: fs).length)
            orig.length) from by simp [encAll]]
        exact window_encFace pre f _
      have hskip : unpackStep orig sub st pre.length = some st := by
        rw [unpackStep, if_pos]
        constructor
        · intro hcon
          rw [← hcon] at hlimit
          simp only [List.length_cons] at hlimit
          omega
        · rw [hwindow]
          intro hcon
          exact (hne f (by simp)) ((encFace_eq_SEP_iff f).mp hcon)
      rw [hskip]
      show (List.range' (pre.length + 6) fs.length 6).foldlM (unpackStep orig sub) st = some st
      have hpre' : (pre ++ encFace f).length = pre.length + 6 := by
        simp [encFace_length]
      rw [← hpre']
      refine ih (pre ++ encFace f) st (fun x hx => hne x (by simp [hx])) ?_ ?_
      · rw [hpre']
        have : pre.length + 6 + 6 * fs.length = pre.length + 6 * (f :: fs).length := by
          simp [List.length_cons]
          ring
        rw [this]
        conv_lhs => rw [horig]
        simp [encAll]
      · rw [hpre']
        simp only [List.length_cons] at hlimit
        omega

theorem sliceN_to_end (l : List Nat) (a : Nat) : sliceN l a l.length = l.drop a := by
  simp [sliceN]

theorem slice_middle (pre mid suf : List Nat) :
    sliceN (pre ++ mid ++ suf) pre.length (pre.length + mid.length) = mid := by
  rw [List.append_assoc, sliceN_take, List.take_append_eq_append_take]
  simp

/-- One scan iteration at a boundary (a separator window or the region end):
the segment is decoded, checked, and turned into one output piece. -/
theorem unpackStep_boundary (orig : List Nat) (sub : SubsetB) (st : UnpSt) (endPos : Nat)
    (hb : endPos = sub.tris.2 ∨ sliceN orig endPos (endPos + 6) = SEP)
    (g : List Face)
    (hdec : iterUnpack (sliceN orig st.segStart endPos) = some g)
    (hg : GoodSeg (sub.verts.2 - sub.verts.1) st.voff g) :
    unpackStep orig sub st endPos =
      some { voff := facesMax g + 1
             segStart := endPos + 6
             out := st.out ++ sliceN orig (sub.verts.1 + 40 * st.voff)
                      (sub.verts.1 + 40 * (facesMax g + 1)) ++
                    encAll (g.map (unshiftFace st.voff))
             nodes := st.nodes ++ [setMeshVI sub.node (facesMax g - st.voff + 1)
                       (g.length * 3)] } := by
  obtain ⟨hne, hmax, hall⟩ := hg
  have hcond : ¬(endPos ≠ sub.tris.2 ∧ sliceN orig endPos (endPos + 6) ≠ SEP) := by
    rcases hb with h | h
    · intro hcon
      exact hcon.1 h
    · intro hcon
      exact hcon.2 h
  have hunsh : packUnshifted st.voff g = some (encAll (g.map (unshiftFace st.voff))) := by
    refine packUnshifted_eq st.voff g ?_
    intro f hf
    obtain ⟨_, h1, h2, h3, h4, h5, h6⟩ := hall f hf
    exact ⟨h4, h5, h6, h1, h2, h3⟩
  rw [unpackStep, if_neg hcond, hdec]
  simp only [Option.bind_eq_bind, Option.some_bind, maxIdx?_eq hne, if_pos hmax, hunsh]

/-- The whole separator scan over a well-formed composite region: one output
piece per segment, with the vertex offset threaded through. -/
theorem unpack_scan (sub : SubsetB) (orig : List Nat) (post : List Nat) :
    ∀ (Gs : List (List Face)) (pre : List Nat) (st : UnpSt),
      Gs ≠ [] → orig = pre ++ segsTail Gs ++ post → st.segStart = pre.length →
      sub.tris.2 = pre.length + (segsTail Gs).length →
      GoodSegs (sub.verts.2 - sub.verts.1) st.voff Gs →
      (List.range' pre.length ((segsTail Gs).length / 6 + 1) 6).foldlM (unpackStep orig sub) st =
        some { voff := lastVoff st.voff Gs
               segStart := sub.tris.2 + 6
               out := st.out ++ pieceBytes orig sub.verts.1 st.voff Gs
               nodes := st.nodes ++ pieceNodes sub.node st.voff Gs } := by
  intro Gs
  induction Gs with
  | nil =>
      intro pre st h
      exact absurd rfl h
  | cons g rest ih =>
      intro pre st _ horig hseg hstop hgood
      obtain ⟨hg, hrest⟩ := hgood
      have hgne : g ≠ [] := hg.1
      cases rest with
      | nil =>
          have hT : segsTail [g] = encAll g := by
            simp [segsTail]
          have horig' : orig = pre ++ encAll g ++ post := by
            rw [horig, hT]
          have hend : pre.length + 6 * g.length = sub.tris.2 := by
            rw [hstop, hT, encAll_length]
          have hcount : (segsTail [g]).length / 6 + 1 = g.length + 1 := by
            rw [hT, encAll_length]
            omega
          rw [hcount, List.range'_concat, List.foldlM_append]
          have hskip : (List.range' pre.length g.length 6).foldlM (unpackStep orig sub) st =
              some st := by
            refine scan_skip sub orig g pre st (fun f hf => (hg.2.2 f hf).1) ?_ (le_of_eq hend)
            have hz : sliceN orig (pre.length + 6 * g.length) orig.length = post := by
              rw [sliceN_to_end]
              conv_lhs => rw [horig']
              rw [show pre ++ encAll g ++ post = (pre ++ encAll g) ++ post from by
                simp [List.append_assoc]]
              rw [show pre.length + 6 * g.length = (pre ++ encAll g).length from by
                simp [encAll_length]]
              exact List.drop_left _ _
            rw [hz]
            exact horig'
          rw [hskip]
          have hdec : iterUnpack (sliceN orig st.segStart (pre.length + 6 * g.length)) =
              some g := by
            rw [hseg]
            have hm := slice_middle pre (encAll g) post
            rw [encAll_length] at hm
            rw [horig', hm]
            exact iterUnpack_encAll g
          have hstep := unpackStep_boundary orig sub st (pre.length + 6 * g.length)
            (Or.inl hend) g hdec hg
          simp only [Option.bind_eq_bind, Option.some_bind, List.foldlM_cons, hstep,
            List.foldlM_nil, Option.pure_def]
          simp only [lastVoff, pieceBytes, pieceNodes, hend]
          rw [List.append_nil, List.append_assoc]
      | cons r rs =>
          have hT : segsTail (g :: r :: rs) = encAll g ++ SEP ++ segsTail (r :: rs) := by
            simp [segsTail]
          have horig' : orig = pre ++ encAll g ++ SEP ++ (segsTail (r :: rs) ++ post) := by
            rw [horig, hT]
            simp [List.append_assoc]
          obtain ⟨k, hk⟩ := six_dvd_segsTail (r :: rs)
          have hstop' : sub.tris.2 =
              pre.length + 6 * g.length + 6 + (segsTail (r :: rs)).length := by
            rw [hstop, hT]
            simp only [List.length_append, encAll_length, SEP, List.length_cons,
              List.length_nil]
            omega
          have hcount : (segsTail (g :: r :: rs)).length / 6 + 1 =
              ((segsTail (r :: rs)).length / 6 + 1) + (g.length + 1) := by
            rw [hT]
            simp only [List.length_append, encAll_length, SEP, List.length_cons,
              List.length_nil]
            omega
          rw [hcount, ← List.range'_append, List.range'_concat, List.foldlM_append,
            List.foldlM_append]
          have hskip : (List.range' pre.length g.length 6).foldlM (unpackStep orig sub) st =
              some st := by
            refine scan_skip sub orig g pre st (fun f hf => (hg.2.2 f hf).1) ?_ (by omega)
            have hz : sliceN orig (pre.length + 6 * g.length) orig.length =
                SEP ++ (segsTail (r :: rs) ++ post) := by
              rw [sliceN_to_end]
              conv_lhs => rw [horig']
              rw [show pre ++ encAll g ++ SEP ++ (segsTail (r :: rs) ++ post) =
                (pre ++ encAll g) ++ (SEP ++ (segsTail (r :: rs) ++ post)) from by
                  simp [List.append_assoc]]
              rw [show pre.length + 6 * g.length = (pre ++ encAll g).length from by
                simp [encAll_length]]
              exact List.drop_left _ _
            rw [hz]
            conv_lhs => rw [horig']
            simp [List.append_assoc]
          rw [hskip]
          have hwin : sliceN orig (pre.length + 6 * g.length)
              (pre.length + 6 * g.length + 6) = SEP := by
            have hm := slice_middle (pre ++ encAll g) SEP (segsTail (r :: rs) ++ post)
            rw [show (pre ++ encAll g).length = pre.length + 6 * g.length from by
              simp [encAll_length]] at hm
            rw [show (SEP : List Nat).length = 6 from rfl] at hm
            conv_lhs => rw [horig']
            rw [show pre ++ encAll g ++ SEP ++ (segsTail (r :: rs) ++ post) =
              (pre ++ encAll g) ++ SEP ++ (segsTail (r :: rs) ++ post) from by
                simp [List.append_assoc]]
            exact hm
          have hdec : iterUnpack (sliceN orig st.segStart (pre.length + 6 * g.length)) =
              some g := by
            rw [hseg]
            have hm := slice_middle pre (encAll g) (SEP ++ (segsTail (r :: rs) ++ post))
            rw [encAll_length] at hm
            conv_lhs => rw [horig']
            rw [show pre ++ encAll g ++ SEP ++ (segsTail (r :: rs) ++ post) =
              pre ++ encAll g ++ (SEP ++ (segsTail (r :: rs) ++ post)) from by
                simp [List.append_assoc]]
            rw [hm]
            exact iterUnpack_encAll g
          have hstep := unpackStep_boundary orig sub st (pre.length + 6 * g.length)
            (Or.inr hwin) g hdec hg
          simp only [Option.bind_eq_bind, Option.some_bind, List.foldlM_cons, hstep,
            List.foldlM_nil, Option.pure_def]
          rw [show pre.length + 6 * (g.length + 1) = pre.length + 6 * g.length + 6 from by ring]
          have hpre' : (pre ++ encAll g ++ SEP).length = pre.length + 6 * g.length + 6 := by
            simp [encAll_length, SEP]
            omega
          have hrec := ih (pre ++ encAll g ++ SEP)
            { voff := facesMax g + 1
              segStart := pre.length + 6 * g.length + 6
              out := st.out ++ sliceN orig (sub.verts.1 + 40 * st.voff)
                       (sub.verts.1 + 40 * (facesMax g + 1)) ++
                     encAll (g.map (unshiftFace st.voff))
              nodes := st.nodes ++ [setMeshVI sub.node (facesMax g - st.voff + 1)
                        (g.length * 3)] }
            (by simp) (by rw [horig']; simp [List.append_assoc]) (by rw [hpre'])
            (by rw [hpre']; omega) hrest
          rw [hpre'] at hrec
          rw [hrec]
          simp only [lastVoff, pieceBytes, pieceNodes, List.append_assoc, List.cons_append,
            List.nil_append, List.singleton_append]

/-- `unpack` on a subset whose triangle region is laid out as separated
segments: one node and one geometry block per segment. -/
theorem unpackBin_run (sub : SubsetB) (orig : List Nat) (Gs : List (List Face))
    (pre post : List Nat)
    (hne : Gs ≠ []) (horig : orig = pre ++ segsTail Gs ++ post)
    (h1 : sub.tris.1 = pre.length)
    (h2 : sub.tris.2 = pre.length + (segsTail Gs).length)
    (hgood : GoodSegs (sub.verts.2 - sub.verts.1) 0 Gs) :
    unpackBin sub orig = some (pieceNodes sub.node 0 Gs, pieceBytes orig sub.verts.1 0 Gs) := by
  rw [unpackBin, scanEnds]
  have hcount : (sub.tris.2 + 6 - sub.tris.1 + 5) / 6 = (segsTail Gs).length / 6 + 1 := by
    obtain ⟨k, hk⟩ := six_dvd_segsTail Gs
    rw [h1, h2]
    omega
  rw [hcount, h1]
  have hscan := unpack_scan sub orig post Gs pre ⟨0, pre.length, [], []⟩ hne horig rfl h2 hgood
  rw [hscan]
  simp

/-! ## The round trip: `unpack` after a single-flush `pack` -/

/-- The segments a pack run lays down: each subset's decoded faces, re-biased
by the offset current at its turn. -/
def mkSegs (orig : List Nat) : Nat → List SubsetB → List (List Face)
  | _, [] => []
  | o, s :: rest => (decTris orig s).map (shiftFace o) :: mkSegs orig (o + nvOf s) rest

/-- The original per-subset geometry, concatenated in input order. -/
def origGeom (orig : List Nat) : List SubsetB → List Nat
  | [] => []
  | s :: rest => vbytes orig s ++ tbytes orig s ++ origGeom orig rest

/-- The nodes `unpack` recovers from a packed composite: one node per original
subset, with its vertex count and face count restored. -/
def rtNodes (orig : List Nat) (nodeN : Element) : List SubsetB → List Element
  | [] => []
  | s :: rest =>
      setMeshVI nodeN (nvOf s) ((decTris orig s).length * 3) :: rtNodes orig nodeN rest

theorem map_shiftFace_zero (fs : List Face) : fs.map (shiftFace 0) = fs := by
  induction fs with
  | nil => rfl
  | cons f fs ih =>
      obtain ⟨a, b, c⟩ := f
      simp [shiftFace, ih]

theorem unshift_shift (o : Nat) (fs : List Face) :
    (fs.map (shiftFace o)).map (unshiftFace o) = fs := by
  induction fs with
  | nil => rfl
  | cons f fs ih =>
      obtain ⟨a, b, c⟩ := f
      simp [shiftFace, unshiftFace, ih]

theorem segsTail_cons_mkSegs (orig : List Nat) :
    ∀ (subs : List SubsetB) (o : Nat) (g : List Face),
      segsTail (g :: mkSegs orig o subs) = encAll g ++ packTailT orig o subs := by
  intro subs
  induction subs with
  | nil => intro o g; simp [mkSegs, segsTail, packTailT]
  | cons s rest ih =>
      intro o g
      rw [mkSegs, packTailT]
      show encAll g ++ (SEP ++ segsTail (((decTris orig s).map (shiftFace o)) ::
        mkSegs orig (o + nvOf s) rest)) = _
      rw [ih (o + nvOf s) ((decTris orig s).map (shiftFace o))]
      simp [List.append_assoc]

/-- The per-subset facts needed for the round trip. -/
def RTsub (orig : List Nat) (sub : SubsetB) : Prop :=
  WFv orig sub ∧
  iterUnpack (tbytes orig sub) = some (decTris orig sub) ∧
  decTris orig sub ≠ [] ∧
  (∀ f ∈ decTris orig sub, f ≠ (0, 0, 0) ∧ f.1 < nvOf sub ∧ f.2.1 < nvOf sub ∧
    f.2.2 < nvOf sub) ∧
  facesMax (decTris orig sub) = nvOf sub - 1

instance (orig : List Nat) (sub : SubsetB) : Decidable (RTsub orig sub) := by
  unfold RTsub
  infer_instance

theorem RTsub_nv_pos {orig : List Nat} {sub : SubsetB} (h : RTsub orig sub) : 1 ≤ nvOf sub := by
  obtain ⟨_, _, hne, hidx, _⟩ := h
  cases hfs : decTris orig sub with
  | nil => exact absurd hfs hne
  | cons f fs =>
      have := (hidx f (by rw [hfs]; simp)).2.1
      omega

theorem goodSegs_mkSegs (orig : List Nat) (vlenB : Nat) :
    ∀ (subs : List SubsetB) (o : Nat),
      (∀ sub ∈ subs, RTsub orig sub) →
      o + sumNv subs < 32768 →
      o + sumNv subs ≤ vlenB →
      GoodSegs vlenB o (mkSegs orig o subs) := by
  intro subs
  induction subs with
  | nil => intro o _ _ _; trivial
  | cons s rest ih =>
      intro o hrt hceil hvlen
      obtain ⟨hwf, hdec, hne, hidx, hmaxeq⟩ := hrt s (by simp)
      have hnv1 : 1 ≤ nvOf s := RTsub_nv_pos (hrt s (by simp))
      have hsum : 0 ≤ sumNv rest := Nat.zero_le _
      have hsumc : sumNv (s :: rest) = nvOf s + sumNv rest := rfl
      have hmaxG : facesMax ((decTris orig s).map (shiftFace o)) = o + nvOf s - 1 := by
        rw [facesMax_shift o hne, hmaxeq]
        omega
      refine ⟨⟨?_, ?_, ?_⟩, ?_⟩
      · intro hcon
        exact hne (by simpa using hcon)
      · rw [hmaxG]
        omega
      · intro f hf
        obtain ⟨f0, hf0, rfl⟩ := List.mem_map.mp hf
        obtain ⟨hne0, h1, h2, h3⟩ := hidx f0 hf0
        obtain ⟨a, b, c⟩ := f0
        refine ⟨?_, ?_, ?_, ?_, ?_, ?_, ?_⟩
        · intro hcon
          simp only [shiftFace, Prod.mk.injEq] at hcon
          obtain ⟨e1, e2, e3⟩ := hcon
          exact hne0 (by simp only [Prod.mk.injEq]; omega)
        · show a + o < 65536
          simp only at h1
          omega
        · show b + o < 65536
          simp only at h2
          omega
        · show c + o < 65536
          simp only at h3
          omega
        · show o ≤ a + o
          omega
        · show o ≤ b + o
          omega
        · show o ≤ c + o
          omega
      · rw [hmaxG, show o + nvOf s - 1 + 1 = o + nvOf s from by omega]
        exact ih (o + nvOf s) (fun x hx => hrt x (by simp [hx])) (by omega) (by omega)

theorem pieceNodes_mkSegs (orig : List Nat) (nodeN : Element) :
    ∀ (subs : List SubsetB) (o : Nat),
      (∀ sub ∈ subs, RTsub orig sub) →
      pieceNodes nodeN o (mkSegs orig o subs) = rtNodes orig nodeN subs := by
  intro subs
  induction subs with
  | nil => intro o _; rfl
  | cons s rest ih =>
      intro o hrt
      obtain ⟨hwf, hdec, hne, hidx, hmaxeq⟩ := hrt s (by simp)
      have hnv1 : 1 ≤ nvOf s := RTsub_nv_pos (hrt s (by simp))
      have hmaxG : facesMax ((decTris orig s).map (shiftFace o)) = o + nvOf s - 1 := by
        rw [facesMax_shift o hne, hmaxeq]
        omega
      rw [mkSegs, pieceNodes, rtNodes, hmaxG,
        show o + nvOf s - 1 + 1 = o + nvOf s from by omega,
        show o + nvOf s - 1 - o + 1 = nvOf s from by omega, List.length_map,
        ih (o + nvOf s) (fun x hx => hrt x (by simp [hx]))]

theorem pieceBytes_mkSegs (orig data : List Nat) (hbytes : ∀ b ∈ orig, b < 256) :
    ∀ (subs : List SubsetB) (o : Nat) (P Q : List Nat),
      data = P ++ packTailV orig subs ++ Q →
      P.length = 40 * o →
      (∀ sub ∈ subs, RTsub orig sub) →
      pieceBytes data 0 o (mkSegs orig o subs) = origGeom orig subs := by
  intro subs
  induction subs with
  | nil => intro o P Q _ _ _; rfl
  | cons s rest ih =>
      intro o P Q hdata hP hrt
      obtain ⟨hwf, hdec, hne, hidx, hmaxeq⟩ := hrt s (by simp)
      have hnv1 : 1 ≤ nvOf s := RTsub_nv_pos (hrt s (by simp))
      have hmaxG : facesMax ((decTris orig s).map (shiftFace o)) = o + nvOf s - 1 := by
        rw [facesMax_shift o hne, hmaxeq]
        omega
      have hvlen : (vbytes orig s).length = 40 * nvOf s := vbytes_length hwf
      have hslice : sliceN data (0 + 40 * o) (0 + 40 * (o + nvOf s)) = vbytes orig s := by
        have hm := slice_middle P (vbytes orig s) (packTailV orig rest ++ Q)
        rw [hP, hvlen] at hm
        rw [show (0:Nat) + 40 * o = 40 * o from by omega,
          show (0:Nat) + 40 * (o + nvOf s) = 40 * o + 40 * nvOf s from by ring]
        rw [hdata, packTailV]
        rw [show P ++ (vbytes orig s ++ packTailV orig rest) ++ Q =
          P ++ vbytes orig s ++ (packTailV orig rest ++ Q) from by simp [List.append_assoc]]
        exact hm
      have htb : encAll (decTris orig s) = tbytes orig s := by
        symm
        exact encAll_of_iterUnpack (tbytes orig s) (decTris orig s) hdec
          (fun b hb => hbytes b (sliceN_subset orig _ _ b hb))
      rw [mkSegs, pieceBytes, hmaxG,
        show o + nvOf s - 1 + 1 = o + nvOf s from by omega, hslice,
        unshift_shift, htb, origGeom,
        ih (o + nvOf s) (P ++ vbytes orig s) Q
          (by rw [hdata, packTailV]; simp [List.append_assoc])
          (by rw [List.length_append, hP, hvlen]; ring)
          (fun x hx => hrt x (by simp [hx]))]

theorem rtNodes_length (orig : List Nat) (nodeN : Element) :
    ∀ subs : List SubsetB, (rtNodes orig nodeN subs).length = subs.length := by
  intro subs
  induction subs with
  | nil => rfl
  | cons s rest ih => simp [rtNodes, ih]

/-- C1 (amended): packing a group of same-key subsets whose combined vertex
count stays below the ceiling into a single composite, then unpacking that
composite with the slices the orchestrator would derive from it, recovers the
original per-subset geometry bit for bit and in order, one node per original
subset with its vertex and face counts restored.  The amendment over the
spec's sentence: each subset must decode cleanly, have at least one face, no
face shaped like the separator, all indices inside the declared vertex count,
and its maximal referenced index must be exactly its vertex count minus one —
otherwise `unpack` truncates the piece at the maximal referenced vertex and
the round trip loses content (see the counterexample). -/
theorem packBin_unpackBin_roundtrip (orig : List Nat) (s0 : SubsetB) (rest : List SubsetB)
    (hbytes : ∀ b ∈ orig, b < 256)
    (hrt : ∀ sub ∈ s0 :: rest, RTsub orig sub)
    (hceil : sumNv (s0 :: rest) < 32768) :
    ∃ N data,
      packBin (s0 :: rest) orig = .ok ([N], data) ∧
      unpackBin ⟨N, (0, 40 * sumNv (s0 :: rest)), (40 * sumNv (s0 :: rest), data.length)⟩
          data =
        some (rtNodes orig N (s0 :: rest), origGeom orig (s0 :: rest)) ∧
      (rtNodes orig N (s0 :: rest)).length = (s0 :: rest).length := by
  have hwfall : ∀ sub ∈ s0 :: rest, WFv orig sub := fun x hx => (hrt x hx).1
  have hdecs : ∀ sub ∈ rest, iterUnpack (tbytes orig sub) = some (decTris orig sub) :=
    fun x hx => (hrt x (by simp [hx])).2.1
  have hidxs : ∀ sub ∈ rest, ∀ f ∈ decTris orig sub, face3max f < nvOf sub := by
    intro x hx f hf
    obtain ⟨_, _, _, hidx, _⟩ := hrt x (by simp [hx])
    obtain ⟨_, h1, h2, h3⟩ := hidx f hf
    simp only [face3max]
    omega
  have hpos0 : 0 < nvOf s0 := RTsub_nv_pos (hrt s0 (by simp))
  obtain ⟨hwf0, hdec0, hne0, hidx0, hmax0⟩ := hrt s0 (by simp)
  have hpack := packBin_run orig s0 rest hpos0 hceil hdecs hidxs
  set V := packTailV orig (s0 :: rest) with hV
  set T := tbytes orig s0 ++ packTailT orig (nvOf s0) rest with hT
  set S := sumNv (s0 :: rest) with hS
  set N := setMeshVI s0.node (V.length / 40) (T.length / 2) with hN
  refine ⟨N, V ++ T, hpack, ?_, rtNodes_length orig N _⟩
  have hVlen : V.length = 40 * S := packTailV_length orig _ hwfall
  have htb0 : encAll (decTris orig s0) = tbytes orig s0 := by
    symm
    exact encAll_of_iterUnpack (tbytes orig s0) (decTris orig s0) hdec0
      (fun b hb => hbytes b (sliceN_subset orig _ _ b hb))
  have hGs : segsTail (mkSegs orig 0 (s0 :: rest)) = T := by
    rw [show mkSegs orig 0 (s0 :: rest) =
      ((decTris orig s0).map (shiftFace 0)) :: mkSegs orig (0 + nvOf s0) rest from rfl]
    rw [map_shiftFace_zero, Nat.zero_add, segsTail_cons_mkSegs, htb0]
  have hS1 : 1 ≤ S := by
    have : sumNv (s0 :: rest) = nvOf s0 + sumNv rest := rfl
    omega
  have hrun := unpackBin_run ⟨N, (0, 40 * S), (40 * S, (V ++ T).length)⟩ (V ++ T)
    (mkSegs orig 0 (s0 :: rest)) V []
    (by simp [mkSegs]) (by rw [hGs]; simp) (by rw [hVlen])
    (by rw [hGs]; show (V ++ T).length = V.length + T.length; simp) ?_
  · rw [hrun]
    have hnodes := pieceNodes_mkSegs orig N (s0 :: rest) 0 hrt
    have hbytes' := pieceBytes_mkSegs orig (V ++ T) hbytes (s0 :: rest) 0 [] T
      (by rw [hV]; simp) (by simp) hrt
    rw [show (SubsetB.mk N (0, 40 * S) (40 * S, (V ++ T).length)).node = N from rfl]
    rw [show (SubsetB.mk N (0, 40 * S) (40 * S, (V ++ T).length)).verts.1 = 0 from rfl]
    rw [hnodes, hbytes']
  · show GoodSegs (40 * S - 0) 0 (mkSegs orig 0 (s0 :: rest))
    rw [show 40 * S - 0 = 40 * S from by omega]
    refine goodSegs_mkSegs orig (40 * S) (s0 :: rest) 0 hrt (by omega) (by omega)

/-! ## Stability of the grouping key -/

theorem charListLt_not_both : ∀ (a b : List Char),
    charListLt a b = false → charListLt b a = false → a = b := by
  intro a
  induction a with
  | nil =>
      intro b h1 _
      cases b with
      | nil => rfl
      | cons c cs => exact absurd h1 (by simp [charListLt])
  | cons c cs ih =>
      intro b h1 h2
      cases b with
      | nil => exact absurd h2 (by simp [charListLt])
      | cons d ds =>
          rw [charListLt] at h1 h2
          by_cases hcd : c.toNat < d.toNat
          · rw [if_pos hcd] at h1
            exact absurd h1 (by simp)
          · by_cases hdc : d.toNat < c.toNat
            · rw [if_pos hdc] at h2
              exact absurd h2 (by simp)
            · rw [if_neg hcd, if_neg hdc] at h1
              rw [if_neg hdc, if_neg hcd] at h2
              have hnat : c.toNat = d.toNat := by omega
              have hc : c = d := Char.eq_of_val_eq (UInt32.toNat.inj hnat)
              rw [hc, ih ds h1 h2]

theorem strLt_not_both {a b : String} (h1 : strLt a b = false) (h2 : strLt b a = false) :
    a = b := by
  obtain ⟨la⟩ := a
  obtain ⟨lb⟩ := b
  have := charListLt_not_both la lb h1 h2
  rw [this]

theorem strLt_irrefl (a : String) : strLt a a = false := by
  obtain ⟨la⟩ := a
  show charListLt la la = false
  induction la with
  | nil => rfl
  | cons c cs ih => simp [charListLt, ih]

theorem charListLt_asymm : ∀ (a b : List Char),
    charListLt a b = true → charListLt b a = true → False := by
  intro a
  induction a with
  | nil =>
      intro b h1 h2
      cases b with
      | nil => exact absurd h1 (by simp [charListLt])
      | cons c cs => exact absurd h2 (by simp [charListLt])
  | cons c cs ih =>
      intro b h1 h2
      cases b with
      | nil => exact absurd h1 (by simp [charListLt])
      | cons d ds =>
          rw [charListLt] at h1 h2
          by_cases hcd : c.toNat < d.toNat
          · rw [if_neg (show ¬d.toNat < c.toNat by omega), if_pos hcd] at h2
            exact absurd h2 (by simp)
          · by_cases hdc : d.toNat < c.toNat
            · rw [if_neg hcd, if_pos hdc] at h1
              exact absurd h1 (by simp)
            · rw [if_neg hcd, if_neg hdc] at h1
              rw [if_neg hdc, if_neg hcd] at h2
              exact ih ds h1 h2

theorem strLt_asymm {a b : String} (h1 : strLt a b = true) (h2 : strLt b a = true) : False :=
  charListLt_asymm a.data b.data h1 h2

theorem pairLe_total (a b : String × String) (h : pairLe a b = false) : pairLe b a = true := by
  rw [pairLe] at h ⊢
  simp only [Bool.or_eq_false_iff, Bool.and_eq_false_iff, Bool.or_eq_true,
    Bool.and_eq_true, beq_iff_eq, beq_eq_false_iff_ne, ne_eq] at h ⊢
  obtain ⟨h1, h2⟩ := h
  by_cases hba : strLt b.1 a.1 = true
  · exact Or.inl hba
  · have hba' : strLt b.1 a.1 = false := by
      revert hba
      cases strLt b.1 a.1 <;> simp
    have hab : a.1 = b.1 := strLt_not_both h1 hba'
    refine Or.inr ⟨hab.symm, ?_⟩
    rcases h2 with h2 | h2
    · exact absurd hab h2
    · obtain ⟨h3, h4⟩ := h2
      by_cases hba2 : strLt b.2 a.2 = true
      · exact Or.inl hba2
      · have hba2' : strLt b.2 a.2 = false := by
          revert hba2
          cases strLt b.2 a.2 <;> simp
        exact absurd (strLt_not_both h3 hba2') h4

theorem pairLe_antisymm {a b : String × String} (h1 : pairLe a b = true)
    (h2 : pairLe b a = true) : a = b := by
  rw [pairLe] at h1 h2
  simp only [Bool.or_eq_true, Bool.and_eq_true, beq_iff_eq] at h1 h2
  rcases h1 with h1 | ⟨he1, hr1⟩
  · rcases h2 with h2 | ⟨he2, _⟩
    · exact absurd (strLt_asymm h1 h2) (by simp)
    · rw [he2] at h1
      rw [strLt_irrefl] at h1
      exact absurd h1 (by simp)
  · rcases h2 with h2 | ⟨_, hr2⟩
    · rw [he1] at h2
      rw [strLt_irrefl] at h2
      exact absurd h2 (by simp)
    · rcases hr1 with hs1 | hs1
      · rcases hr2 with hs2 | hs2
        · exact absurd (strLt_asymm hs1 hs2) (by simp)
        · rw [hs2] at hs1
          rw [strLt_irrefl] at hs1
          exact absurd hs1 (by simp)
      · exact Prod.ext he1 hs1

theorem charListLt_trans : ∀ (a b c : List Char),
    charListLt a b = true → charListLt b c = true → charListLt a c = true := by
  intro a
  induction a with
  | nil =>
      intro b c h1 h2
      cases b with
      | nil => exact absurd h1 (by simp [charListLt])
      | cons y ys =>
          cases c with
          | nil => exact absurd h2 (by simp [charListLt])
          | cons z zs => simp [charListLt]
  | cons x xs ih =>
      intro b c h1 h2
      cases b with
      | nil => exact absurd h1 (by simp [charListLt])
      | cons y ys =>
          cases c with
          | nil => exact absurd h2 (by simp [charListLt])
          | cons z zs =>
              rw [charListLt] at h1 h2 ⊢
              by_cases hxy : x.toNat < y.toNat
              · by_cases hyz : y.toNat < z.toNat
                · rw [if_pos (show x.toNat < z.toNat by omega)]
                · by_cases hzy : z.toNat < y.toNat
                  · rw [if_neg hyz, if_pos hzy] at h2
                    exact absurd h2 (by simp)
                  · rw [if_pos (show x.toNat < z.toNat by omega)]
              · by_cases hyx : y.toNat < x.toNat
                · rw [if_neg hxy, if_pos hyx] at h1
                  exact absurd h1 (by simp)
                · rw [if_neg hxy, if_neg hyx] at h1
                  by_cases hyz : y.toNat < z.toNat
                  · rw [if_pos (show x.toNat < z.toNat by omega)]
                  · by_cases hzy : z.toNat < y.toNat
                    · rw [if_neg hyz, if_pos hzy] at h2
                      exact absurd h2 (by simp)
                    · rw [if_neg hyz, if_neg hzy] at h2
                      rw [if_neg (show ¬x.toNat < z.toNat by omega),
                        if_neg (show ¬z.toNat < x.toNat by omega)]
                      exact ih ys zs h1 h2

theorem strLt_trans {a b c : String} (h1 : strLt a b = true) (h2 : strLt b c = true) :
    strLt a c = true :=
  charListLt_trans a.data b.data c.data h1 h2

theorem pairLe_trans {a b c : String × String} (h1 : pairLe a b = true)
    (h2 : pairLe b c = true) : pairLe a c = true := by
  rw [pairLe] at h1 h2 ⊢
  simp only [Bool.or_eq_true, Bool.and_eq_true, beq_iff_eq] at h1 h2 ⊢
  rcases h1 with h1 | ⟨he1, hr1⟩
  · rcases h2 with h2 | ⟨he2, _⟩
    · exact Or.inl (strLt_trans h1 h2)
    · exact Or.inl (he2 ▸ h1)
  · rcases h2 with h2 | ⟨he2, hr2⟩
    · exact Or.inl (he1 ▸ h2)
    · refine Or.inr ⟨he1.trans he2, ?_⟩
      rcases hr1 with hs1 | hs1
      · rcases hr2 with hs2 | hs2
        · exact Or.inl (strLt_trans hs1 hs2)
        · exact Or.inl (hs2 ▸ hs1)
      · rcases hr2 with hs2 | hs2
        · exact Or.inl (hs1 ▸ hs2)
        · exact Or.inr (hs1.trans hs2)

/-- The sortedness relation the attribute sort establishes. -/
abbrev PR : (String × String) → (String × String) → Prop := fun a b => pairLe a b = true

theorem insertPair_perm (x : String × String) :
    ∀ l, (insertPair x l).Perm (x :: l) := by
  intro l
  induction l with
  | nil => exact List.Perm.refl _
  | cons y ys ih =>
      rw [insertPair]
      by_cases h : pairLe x y = true
      · rw [if_pos h]
      · rw [if_neg h]
        exact (List.Perm.cons y ih).trans (List.Perm.swap x y ys)

theorem sortPairs_perm : ∀ l, (sortPairs l).Perm l := by
  intro l
  induction l with
  | nil => exact List.Perm.refl _
  | cons x xs ih =>
      rw [sortPairs]
      exact (insertPair_perm x (sortPairs xs)).trans (List.Perm.cons x ih)

theorem insertPair_sorted (x : String × String) :
    ∀ l, l.Pairwise PR → (insertPair x l).Pairwise PR := by
  intro l
  induction l with
  | nil => intro _; simp [insertPair]
  | cons y ys ih =>
      intro h
      obtain ⟨hy, hys⟩ := List.pairwise_cons.mp h
      rw [insertPair]
      by_cases hxy : pairLe x y = true
      · rw [if_pos hxy]
        refine List.pairwise_cons.mpr ⟨?_, h⟩
        intro z hz
        rcases List.mem_cons.mp hz with rfl | hmem
        · exact hxy
        · exact pairLe_trans hxy (hy z hmem)
      · rw [if_neg hxy]
        refine List.pairwise_cons.mpr ⟨?_, ih hys⟩
        intro z hz
        have hz' := (insertPair_perm x ys).mem_iff.mp hz
        rcases List.mem_cons.mp hz' with rfl | hmem
        · exact pairLe_total z y (by revert hxy; cases pairLe z y <;> simp)
        · exact hy z hmem

theorem sortPairs_sorted : ∀ l, (sortPairs l).Pairwise PR := by
  intro l
  induction l with
  | nil => simp [sortPairs]
  | cons x xs ih =>
      rw [sortPairs]
      exact insertPair_sorted x (sortPairs xs) ih

/-- Sorting is invariant under permutation of the input: the sort is by a
total, transitive, antisymmetric comparison. -/
theorem sortPairs_eq_of_perm {l₁ l₂ : List (String × String)} (hp : l₁.Perm l₂) :
    sortPairs l₁ = sortPairs l₂ := by
  refine @List.eq_of_perm_of_sorted _ PR ⟨fun a b ha hb => pairLe_antisymm ha hb⟩ _ _
    ?_ (sortPairs_sorted l₁) (sortPairs_sorted l₂)
  exact (sortPairs_perm l₁).trans (hp.trans (sortPairs_perm l₂).symm)

/-! ## Provenance of the flushed nodes -/

/-- One pack step only ever appends nodes built by `flush`, which copies
`subsets[0]` — the `first` argument threaded through the whole run. -/
theorem packStepBin_nodes (first : Element) (orig : List Nat) {st : PackSt} {sub : SubsetB}
    {st' : PackSt} (h : packStepBin first orig st sub = .ok st')
    (hn : ∀ n ∈ st.nodes, ∃ v i, n = setMeshVI first v i) :
    ∀ n ∈ st'.nodes, ∃ v i, n = setMeshVI first v i := by
  have hflush : ∀ n ∈ (flushBin first st).nodes, ∃ v i, n = setMeshVI first v i := by
    intro n hmem
    rw [flushBin] at hmem
    simp only [List.mem_append, List.mem_singleton] at hmem
    rcases hmem with hmem | rfl
    · exact hn n hmem
    · exact ⟨st.vdata.length / 40, st.tdata.length / 2, rfl⟩
  rw [packStepBin] at h
  simp only [show (sub.verts.2 - sub.verts.1) / 40 = nvOf sub from rfl] at h
  by_cases hc : 32768 ≤ st.off + nvOf sub
  · simp only [if_pos hc] at h
    by_cases hc2 : 32768 ≤ (flushBin first st).off + nvOf sub
    · rw [if_pos hc2] at h
      cases h
    · rw [if_neg hc2, if_pos (show (flushBin first st).off = 0 from rfl)] at h
      injection h with h
      subst h
      exact hflush
  · simp only [if_neg hc] at h
    by_cases hz : st.off = 0
    · rw [if_pos hz] at h
      injection h with h
      subst h
      exact hn
    · rw [if_neg hz] at h
      cases hdec : iterUnpack (sliceN orig sub.tris.1 sub.tris.2) with
      | none =>
          rw [hdec] at h
          cases h
      | some fs =>
          rw [hdec] at h
          have h2 : (match packShifted st.off fs with
              | none => (Except.error PackErr.structError : Except PackErr PackSt)
              | some bs =>
                  Except.ok { off := st.off + nvOf sub,
                              vdata := st.vdata ++ sliceN orig sub.verts.1 sub.verts.2,
                              tdata := st.tdata ++ SEP ++ bs, out := st.out,
                              nodes := st.nodes }) = Except.ok st' := h
          cases hsh : packShifted st.off fs with
          | none =>
              rw [hsh] at h2
              cases h2
          | some bs =>
              rw [hsh] at h2
              injection h2 with h2
              subst h2
              exact hn

/-- The node-provenance fact threaded through the whole loop. -/
theorem packFold_nodes (first : Element) (orig : List Nat) :
    ∀ (subs : List SubsetB) (st : PackSt) (st' : PackSt),
      subs.foldlM (packStepBin first orig) st = .ok st' →
      (∀ n ∈ st.nodes, ∃ v i, n = setMeshVI first v i) →
      ∀ n ∈ st'.nodes, ∃ v i, n = setMeshVI first v i := by
  intro subs
  induction subs with
  | nil =>
      intro st st' h hn
      rw [List.foldlM_nil] at h
      injection h with h
      subst h
      exact hn
  | cons s rest ih =>
      intro st st' h hn
      rw [List.foldlM_cons] at h
      cases hstep : packStepBin first orig st s with
      | error e =>
          rw [hstep, error_bind] at h
          cases h
      | ok st1 =>
          rw [hstep, ok_bind] at h
          exact ih st1 st' h (packStepBin_nodes first orig hstep hn)

/-! ## `pack` never fires its assert on per-subset-bounded input -/

/-- Over well-formed subsets each individually below the ceiling, `pack`
cannot die on its `assert`, and every node it emits declares `MeshV` below
32768. -/
theorem packBin_no_assert (orig : List Nat) (subs : List SubsetB)
    (h : ∀ sub ∈ subs, WFv orig sub ∧ nvOf sub < 32768) :
    packBin subs orig ≠ .error .assertFail ∧
    ∀ ns data, packBin subs orig = .ok (ns, data) → ∀ n ∈ ns, GoodNode n := by
  cases subs with
  | nil =>
      refine ⟨?_, ?_⟩
      · rw [packBin]
        intro hcon
        injection hcon with he
        cases he
      · intro ns data hcon
        rw [packBin] at hcon
        cases hcon
  | cons s0 rest =>
      have hinv0 : PackInv ⟨0, [], [], [], []⟩ :=
        ⟨rfl, by norm_num, by intro n hn; cases hn⟩
      obtain ⟨hne, hok⟩ := packFold_inv s0.node orig (s0 :: rest) ⟨0, [], [], [], []⟩ h hinv0
      rw [packBin]
      cases hfold : (s0 :: rest).foldlM (packStepBin s0.node orig) ⟨0, [], [], [], []⟩ with
      | error e =>
          refine ⟨?_, ?_⟩
          · rw [error_bind]
            intro hcon
            injection hcon with he
            exact hne (by rw [hfold, he])
          · intro ns data hcon
            rw [error_bind] at hcon
            cases hcon
      | ok s =>
          have hinv : PackInv s := hok s hfold
          obtain ⟨_, _, hnodes⟩ := PackInv_flushBin s0.node hinv
          refine ⟨?_, ?_⟩
          · rw [ok_bind]
            intro hcon
            cases hcon
          · intro ns data hcon
            rw [ok_bind] at hcon
            injection hcon with hcon
            injection hcon with h1 h2
            subst h1
            exact hnodes

/-- The `vert_idx_offset == 0` iteration of the loop: vertex and triangle
regions are appended verbatim and the offset advances by the vertex count. -/
theorem packStepBin_zero (first : Element) (orig : List Nat) (st : PackSt) (sub : SubsetB)
    (hz : st.off = 0) (hlt : nvOf sub < 32768) :
    packStepBin first orig st sub =
      .ok { st with vdata := st.vdata ++ vbytes orig sub,
                    tdata := st.tdata ++ tbytes orig sub,
                    off := st.off + nvOf sub } := by
  have hflush : ¬32768 ≤ st.off + nvOf sub := by omega
  rw [packStepBin]
  simp only [show (sub.verts.2 - sub.verts.1) / 40 = nvOf sub from rfl, if_neg hflush,
    if_pos hz]
  rfl

/-- The 20000 + 20000 scenario: packing two 20000-vertex subsets with empty
triangle regions flushes between them (20000 + 20000 ≥ 32768) and produces two
output subsets, each restarting the index space at offset 0 with its own
`MeshV` of 20000, both carrying the first subset's node. -/
theorem packBin_flush_pair (orig : List Nat) (sA sB : SubsetB)
    (hA : nvOf sA = 20000) (hB : nvOf sB = 20000)
    (hvA : (vbytes orig sA).length = 800000) (hvB : (vbytes orig sB).length = 800000)
    (htA : tbytes orig sA = []) (htB : tbytes orig sB = []) :
    packBin [sA, sB] orig =
      .ok ([setMeshVI sA.node 20000 0, setMeshVI sA.node 20000 0],
        vbytes orig sA ++ vbytes orig sB) := by
  have h2 : packStepBin sA.node orig ⟨nvOf sA, vbytes orig sA, tbytes orig sA, [], []⟩ sB =
      .ok ⟨nvOf sB, vbytes orig sB, tbytes orig sB,
        vbytes orig sA ++ tbytes orig sA, [setMeshVI sA.node 20000 0]⟩ := by
    rw [packStepBin]
    simp only [show (sB.verts.2 - sB.verts.1) / 40 = nvOf sB from rfl]
    rw [if_pos (show 32768 ≤ (⟨nvOf sA, vbytes orig sA, tbytes orig sA, [], []⟩ : PackSt).off +
      nvOf sB by show 32768 ≤ nvOf sA + nvOf sB; omega)]
    simp only [flushBin]
    rw [if_neg (show ¬32768 ≤ (0 : Nat) + nvOf sB by omega), if_pos trivial]
    rw [htA]
    simp only [List.nil_append, List.append_nil, Nat.zero_add]
    rw [show (vbytes orig sA).length / 40 = 20000 by rw [hvA]]
    rfl
  rw [packBin, List.foldlM_cons,
    packStepBin_first sA.node orig sA (by omega), ok_bind, List.foldlM_cons, h2, ok_bind,
    List.foldlM_nil]
  show Except.ok
    ((flushBin sA.node ⟨nvOf sB, vbytes orig sB, tbytes orig sB,
        vbytes orig sA ++ tbytes orig sA, [setMeshVI sA.node 20000 0]⟩).nodes,
     (flushBin sA.node ⟨nvOf sB, vbytes orig sB, tbytes orig sB,
        vbytes orig sA ++ tbytes orig sA, [setMeshVI sA.node 20000 0]⟩).out) = _
  simp only [flushBin]
  rw [htA, htB]
  rw [show (vbytes orig sB).length / 40 = 20000 by rw [hvB]]
  simp

/-! ## Frame facts about the in-place face rewrite of bufferless `pack` -/

theorem map_unshiftFace_zero (fs : List Face) : fs.map (unshiftFace 0) = fs := by
  induction fs with
  | nil => rfl
  | cons f fs ih =>
      obtain ⟨a, b, c⟩ := f
      simp [unshiftFace, ih]

/-- An element object not listed in the loop keeps its `i` attribute. -/
theorem heapShiftAll_not_mem : ∀ (ids : List Nat) (h : FaceHeap) (o : Nat) (j : Nat),
    j ∉ ids → heapShiftAll h ids o j = h j := by
  intro ids
  induction ids with
  | nil => intro h o j _; rfl
  | cons i ids ih =>
      intro h o j hj
      have hne : j ≠ i := by intro hcon; exact hj (by rw [hcon]; simp)
      have hrest : j ∉ ids := by intro hcon; exact hj (by simp [hcon])
      show heapShiftAll (heapSet h i (shiftFace o (h i))) ids o j = h j
      rw [ih _ o j hrest, heapSet, if_neg hne]

/-- A listed element object (the list holding each object once, as `findall`
returns it) gets its `i` attribute shifted up exactly once. -/
theorem heapShiftAll_mem : ∀ (ids : List Nat) (h : FaceHeap) (o : Nat) (j : Nat),
    ids.Nodup → j ∈ ids → heapShiftAll h ids o j = shiftFace o (h j) := by
  intro ids
  induction ids with
  | nil => intro h o j _ hj; cases hj
  | cons i ids ih =>
      intro h o j hnodup hj
      have hnod : ids.Nodup := (List.nodup_cons.mp hnodup).2
      have hnoti : i ∉ ids := (List.nodup_cons.mp hnodup).1
      show heapShiftAll (heapSet h i (shiftFace o (h i))) ids o j = shiftFace o (h j)
      rcases List.mem_cons.mp hj with rfl | hjin
      · rw [heapShiftAll_not_mem ids _ o j hnoti, heapSet, if_pos rfl]
      · have hne : j ≠ i := by intro hcon; subst hcon; exact hnoti hjin
        rw [ih _ o j hnod hjin, heapSet, if_neg hne]

/-! ## The claims

Each claim of the specification, one theorem per claim, with a closed
witness instance for every theorem that carries hypotheses and a closed
counterexample for every claim the code refutes as stated. -/

/-- C3: for every transform (pack or unpack) run in binary mode that the main
loop accepts, the produced geometry buffer's length equals
`40 × Σ MeshV + 2 × Σ MeshI` over the output descriptors — the identity the
source asserts (lines 248–252) before any output is handed onward, so an
accepted result always satisfies it, in both the pack and the unpack
direction (`isPack` is arbitrary). -/
theorem mainBinary_accounting (isPack : Bool) (nodes : List Element) (lsb : List Nat)
    (ns : List Element) (data : List Nat)
    (h : mainBinary isPack nodes lsb = some (ns, data)) :
    totalSpan ns = some data.length := by
  rw [mainBinary] at h
  split at h
  · cases h
  · split at h
    · cases h
    · split at h
      · cases h
      · split at h
        · cases h
        · split at h
          · cases h
          · split at h
            · rename_i hts heq
              injection h with hh
              injection hh with h1 h2
              subst h1
              subst h2
              rw [hts, heq]
            · cases h

/-- Witness for C3: the accepted pack run over the empty buffer with two
1-vertex descriptors produces one composite node declaring `MeshV` 0 and
`MeshI` 3 over the 6 separator bytes, and the accounting identity holds. -/
theorem mainBinary_accounting_instance :
    mainBinary true [n40, n40] [] = some ([setMeshVI n40 0 3], SEP) ∧
    totalSpan [setMeshVI n40 0 3] = some SEP.length :=
  ⟨by decide, mainBinary_accounting true [n40, n40] [] [setMeshVI n40 0 3] SEP (by decide)⟩

set_option maxRecDepth 40000 in
/-- Witness for C1: the round trip on the concrete buffer `fixOrig`, a
2-vertex and a 3-vertex subset each referencing all its vertices. -/
theorem roundtrip_instance :
    ((∀ b ∈ fixOrig, b < 256) ∧ (∀ sub ∈ fixSubA :: [fixSubB], RTsub fixOrig sub) ∧
      sumNv (fixSubA :: [fixSubB]) < 32768) ∧
    (∃ N data,
      packBin (fixSubA :: [fixSubB]) fixOrig = .ok ([N], data) ∧
      unpackBin ⟨N, (0, 40 * sumNv (fixSubA :: [fixSubB])),
          (40 * sumNv (fixSubA :: [fixSubB]), data.length)⟩ data =
        some (rtNodes fixOrig N (fixSubA :: [fixSubB]),
          origGeom fixOrig (fixSubA :: [fixSubB])) ∧
      (rtNodes fixOrig N (fixSubA :: [fixSubB])).length = (fixSubA :: [fixSubB]).length) :=
  ⟨⟨by decide, by decide, by decide⟩,
    packBin_unpackBin_roundtrip fixOrig fixSubA [fixSubB] (by decide) (by decide) (by decide)⟩

set_option maxRecDepth 40000 in
/-- Counterexample for C1 as the spec states it: a group whose first subset
declares 3 vertices but references only indices 0 and 1.  Packing and then
unpacking the composite (combined vertex count 5, far below the ceiling, so
no splitting is forced) returns pieces with `MeshV` 2 and 3 instead of the
original 3 and 2, and geometry bytes that differ from the original ordered
content: `unpack` cuts each piece at its maximal referenced vertex, so the
round trip is not the identity without the amendment's extra premises. -/
theorem roundtrip_loses_vertices :
    packBin [cexSubA, cexSubB] cexOrig = .ok ([setMeshVI fixNodeB 5 9], cexPacked) ∧
    unpackBin ⟨setMeshVI fixNodeB 5 9, (0, 200), (200, 218)⟩ cexPacked =
      some ([setMeshVI fixNodeB 2 3, setMeshVI fixNodeB 3 3],
        List.replicate 80 7 ++ encFace (0, 1, 0) ++
          (List.replicate 40 7 ++ List.replicate 80 5 ++ encFace (1, 2, 2))) ∧
    (List.replicate 80 7 ++ encFace (0, 1, 0) ++
          (List.replicate 40 7 ++ List.replicate 80 5 ++ encFace (1, 2, 2)) : List Nat) ≠
      origGeom cexOrig [cexSubA, cexSubB] ∧
    attrLookup (setMeshVI fixNodeB 2 3).attrib "MeshV" ≠
      attrLookup fixNodeB.attrib "MeshV" := by
  decide

/-- C2: over a group of well-formed subsets each individually declaring fewer
than 32768 vertices, `pack` never aborts on its ceiling assert, and every
output subset declares `MeshV` strictly below 32768; and the concrete
scenario — two same-key subsets of 20000 vertices each — flushes after the
first (20000 + 20000 ≥ 32768) and yields exactly two output subsets, the
second restarting the vertex-index space at offset 0 with its own `MeshV`
20000. -/
theorem pack_ceiling (orig : List Nat) (subs : List SubsetB) (sA sB : SubsetB)
    (h : ∀ sub ∈ subs, WFv orig sub ∧ nvOf sub < 32768)
    (hA : nvOf sA = 20000) (hB : nvOf sB = 20000)
    (hvA : (vbytes orig sA).length = 800000) (hvB : (vbytes orig sB).length = 800000)
    (htA : tbytes orig sA = []) (htB : tbytes orig sB = []) :
    (packBin subs orig ≠ .error .assertFail ∧
     ∀ ns data, packBin subs orig = .ok (ns, data) → ∀ n ∈ ns, GoodNode n) ∧
    packBin [sA, sB] orig =
      .ok ([setMeshVI sA.node 20000 0, setMeshVI sA.node 20000 0],
        vbytes orig sA ++ vbytes orig sB) :=
  ⟨packBin_no_assert orig subs h, packBin_flush_pair orig sA sB hA hB hvA hvB htA htB⟩

/-- Witness for C2 on a 1.6-megabyte zero buffer holding two 20000-vertex
subsets with empty triangle regions. -/
theorem pack_ceiling_instance :
    ((∀ sub ∈ ([] : List SubsetB), WFv (List.replicate 1600000 0) sub ∧ nvOf sub < 32768) ∧
      nvOf deepSubA = 20000 ∧ nvOf deepSubB = 20000 ∧
      (vbytes (List.replicate 1600000 0) deepSubA).length = 800000 ∧
      (vbytes (List.replicate 1600000 0) deepSubB).length = 800000 ∧
      tbytes (List.replicate 1600000 0) deepSubA = [] ∧
      tbytes (List.replicate 1600000 0) deepSubB = []) ∧
    ((packBin [] (List.replicate 1600000 0) ≠ .error .assertFail ∧
      ∀ ns data, packBin [] (List.replicate 1600000 0) = .ok (ns, data) →
        ∀ n ∈ ns, GoodNode n) ∧
     packBin [deepSubA, deepSubB] (List.replicate 1600000 0) =
       .ok ([setMeshVI deepSubA.node 20000 0, setMeshVI deepSubA.node 20000 0],
         vbytes (List.replicate 1600000 0) deepSubA ++
           vbytes (List.replicate 1600000 0) deepSubB)) :=
  ⟨⟨(fun _ hsub => nomatch hsub), by decide, by decide,
      (by
        rw [show vbytes (List.replicate 1600000 0) deepSubA =
            ((List.replicate 1600000 0).take 800000).drop 0 from rfl, List.drop_zero,
          List.length_take, List.length_replicate]
        decide),
      (by
        rw [show vbytes (List.replicate 1600000 0) deepSubB =
            ((List.replicate 1600000 0).take 1600000).drop 800000 from rfl,
          List.length_drop, List.length_take, List.length_replicate]
        decide),
      sliceN_eq_nil_of_le _ le_rfl, sliceN_eq_nil_of_le _ le_rfl⟩,
    pack_ceiling (List.replicate 1600000 0) [] deepSubA deepSubB
      (fun _ hsub => nomatch hsub) (by decide) (by decide)
      (by
        rw [show vbytes (List.replicate 1600000 0) deepSubA =
            ((List.replicate 1600000 0).take 800000).drop 0 from rfl, List.drop_zero,
          List.length_take, List.length_replicate]
        decide)
      (by
        rw [show vbytes (List.replicate 1600000 0) deepSubB =
            ((List.replicate 1600000 0).take 1600000).drop 800000 from rfl,
          List.length_drop, List.length_take, List.length_replicate]
        decide)
      (sliceN_eq_nil_of_le _ le_rfl) (sliceN_eq_nil_of_le _ le_rfl)⟩

/-- C4 (amended): every node a binary-mode pack run emits is built from
`subsets[0].node` — the first subset of the *whole group*, not the first
subset of the flushed run — with only `MeshV` and `MeshI` rewritten (set from
the accumulated sizes).  The spec's "first subset of the flushed run" is
refuted by the counterexample below. -/
theorem packBin_nodes_from_head (s0 : SubsetB) (rest : List SubsetB) (orig : List Nat)
    {ns : List Element} {data : List Nat}
    (h : packBin (s0 :: rest) orig = .ok (ns, data)) :
    ∀ n ∈ ns, ∃ v i, n = setMeshVI s0.node v i := by
  rw [packBin] at h
  cases hfold : (s0 :: rest).foldlM (packStepBin s0.node orig) ⟨0, [], [], [], []⟩ with
  | error e =>
      rw [hfold, error_bind] at h
      cases h
  | ok s =>
      rw [hfold, ok_bind] at h
      injection h with h
      injection h with h1 h2
      subst h1
      have hstep : ∀ n ∈ s.nodes, ∃ v i, n = setMeshVI s0.node v i :=
        packFold_nodes s0.node orig (s0 :: rest) ⟨0, [], [], [], []⟩ s hfold
          (by intro n hn; cases hn)
      intro n hn
      rw [flushBin] at hn
      simp only [List.mem_append, List.mem_singleton] at hn
      rcases hn with hn | rfl
      · exact hstep n hn
      · exact ⟨s.vdata.length / 40, s.tdata.length / 2, rfl⟩

/-- Witness for C4: both outputs of the flushing 20000 + 20000 run are built
from the group head's node. -/
theorem packBin_nodes_from_head_instance :
    packBin [deepSubA, deepSubB] [] =
      .ok ([setMeshVI deepNodeA 0 0, setMeshVI deepNodeA 0 0], []) ∧
    (∀ n ∈ [setMeshVI deepNodeA 0 0, setMeshVI deepNodeA 0 0],
      ∃ v i, n = setMeshVI deepSubA.node v i) :=
  ⟨by decide, @packBin_nodes_from_head deepSubA [deepSubB] []
    [setMeshVI deepNodeA 0 0, setMeshVI deepNodeA 0 0] [] (by decide)⟩

/-- Counterexample for C4 as the spec states it: two same-key subsets whose
nodes differ in a non-geometry child (the grouping key skips `MeshV` at every
level, so they do land in one group).  The ceiling forces a flush between
them, so the second output subset's run consists of the second input subset
only — yet its non-geometry child is `deepNodeA`'s (child `MeshV` "1"), not
`deepNodeB`'s: `flush` always copies `subsets[0]` of the whole group. -/
theorem flush_copies_group_head :
    calcSubsetKey deepNodeA = calcSubsetKey deepNodeB ∧
    packBin [deepSubA, deepSubB] [] =
      .ok ([setMeshVI deepNodeA 0 0, setMeshVI deepNodeA 0 0], []) ∧
    (setMeshVI deepNodeA 0 0).children = deepNodeA.children ∧
    deepNodeA.children ≠ deepNodeB.children := by
  decide

/-- C5 (amended): a subset whose triangle region holds one nonempty
separator-free segment unpacks to exactly one output piece — but the piece's
vertex region runs from the start only through the maximal referenced vertex
index, `40 × (max + 1)` bytes, not the subset's whole declared vertex region,
and its `MeshV` is recomputed as `max + 1`.  The spec's "covering the whole
region (a no-op pass-through)" is refuted by the counterexample below;
moreover an *empty* segment does not pass through either, it aborts (`max()`
of an empty sequence), hence the nonemptiness premise. -/
theorem unpackBin_single (sub : SubsetB) (orig : List Nat) (g : List Face)
    (pre post : List Nat)
    (horig : orig = pre ++ encAll g ++ post)
    (h1 : sub.tris.1 = pre.length) (h2 : sub.tris.2 = pre.length + 6 * g.length)
    (hg : g ≠ []) (hmax : facesMax g < sub.verts.2 - sub.verts.1)
    (hfs : ∀ f ∈ g, f ≠ (0, 0, 0) ∧ f.1 < 65536 ∧ f.2.1 < 65536 ∧ f.2.2 < 65536) :
    unpackBin sub orig =
      some ([setMeshVI sub.node (facesMax g + 1) (g.length * 3)],
        sliceN orig sub.verts.1 (sub.verts.1 + 40 * (facesMax g + 1)) ++ encAll g) := by
  have hseg : segsTail [g] = encAll g := by
    simp [segsTail]
  have hgood : GoodSegs (sub.verts.2 - sub.verts.1) 0 [g] := by
    refine ⟨⟨hg, hmax, ?_⟩, trivial⟩
    intro f hf
    obtain ⟨hne, hb1, hb2, hb3⟩ := hfs f hf
    exact ⟨hne, hb1, hb2, hb3, Nat.zero_le _, Nat.zero_le _, Nat.zero_le _⟩
  have hrun := unpackBin_run sub orig [g] pre post (by simp)
    (by rw [horig, hseg]) h1 (by rw [hseg, encAll_length, h2]) hgood
  rw [hrun, pieceNodes, pieceNodes, pieceBytes, pieceBytes, map_unshiftFace_zero]
  simp

set_option maxRecDepth 40000 in
/-- Witness for C5: the single-segment subset of `smallOrig`. -/
theorem unpackBin_single_instance :
    (smallOrig = List.replicate 80 0 ++ encAll [((0, 1, 1) : Face)] ++ [] ∧
      smallSub.tris.1 = (List.replicate 80 0 : List Nat).length ∧
      smallSub.tris.2 = (List.replicate 80 0 : List Nat).length +
        6 * [((0, 1, 1) : Face)].length ∧
      ([((0, 1, 1) : Face)] ≠ []) ∧
      facesMax [((0, 1, 1) : Face)] < smallSub.verts.2 - smallSub.verts.1 ∧
      (∀ f ∈ [((0, 1, 1) : Face)], f ≠ (0, 0, 0) ∧ f.1 < 65536 ∧ f.2.1 < 65536 ∧
        f.2.2 < 65536)) ∧
    unpackBin smallSub smallOrig =
      some ([setMeshVI smallSub.node (facesMax [((0, 1, 1) : Face)] + 1)
              ([((0, 1, 1) : Face)].length * 3)],
        sliceN smallOrig smallSub.verts.1
            (smallSub.verts.1 + 40 * (facesMax [((0, 1, 1) : Face)] + 1)) ++
          encAll [((0, 1, 1) : Face)]) :=
  ⟨⟨by decide, by decide, by decide, by decide, by decide, by decide⟩,
    unpackBin_single smallSub smallOrig [((0, 1, 1) : Face)] (List.replicate 80 0) []
      (by decide) (by decide) (by decide) (by decide) (by decide) (by decide)⟩

set_option maxRecDepth 40000 in
/-- Counterexample for C5 as the spec states it: a separator-free subset
declaring 3 vertices whose only face references indices 0 and 1.  Its single
output piece holds 86 bytes (2 vertex records and one face), not the whole
126-byte region, and its `MeshV` is 2, not the declared 3. -/
theorem single_segment_not_whole_region :
    unpackBin cexSubA cexOrig =
      some ([setMeshVI fixNodeB 2 3], List.replicate 80 7 ++ encFace (0, 1, 0)) ∧
    (List.replicate 80 7 ++ encFace (0, 1, 0) : List Nat).length ≠ 126 ∧
    attrLookup (setMeshVI fixNodeB 2 3).attrib "MeshV" ≠ some "3" := by
  decide

set_option maxRecDepth 100000 in
/-- C6: over a well-laid-out composite region, each scan segment emits one
output subset: its vertex region is the parent's vertex records from the
running offset through the segment's maximal referenced index inclusive
(`pieceBytes` slices `[40·voff, 40·(max+1))` of the vertex region), its faces
are re-based down by the running offset so they start at 0, and its `MeshV`
and `MeshI` are the piece's local sizes `max − voff + 1` and `3 × faces`
(`pieceNodes`); and concretely, unpacking a composite built from vertex
counts 10 and 15 joined by one separator yields exactly two subsets with
`MeshV` 10 and 15 and re-based faces. -/
theorem unpack_pieces (sub : SubsetB) (orig : List Nat) (Gs : List (List Face))
    (pre post : List Nat) (hne : Gs ≠ []) (horig : orig = pre ++ segsTail Gs ++ post)
    (h1 : sub.tris.1 = pre.length) (h2 : sub.tris.2 = pre.length + (segsTail Gs).length)
    (hgood : GoodSegs (sub.verts.2 - sub.verts.1) 0 Gs) :
    (unpackBin sub orig = some (pieceNodes sub.node 0 Gs, pieceBytes orig sub.verts.1 0 Gs)) ∧
    unpackBin scenSub scenOrig =
      some ([setMeshVI scenNode 10 3, setMeshVI scenNode 15 3],
        List.replicate 400 0 ++ encFace (0, 1, 9) ++
          (List.replicate 600 0 ++ encFace (0, 1, 14))) :=
  ⟨unpackBin_run sub orig Gs pre post hne horig h1 h2 hgood, by decide⟩

set_option maxRecDepth 40000 in
/-- Witness for C6 on the single-segment subset of `smallOrig`. -/
theorem unpack_pieces_instance :
    (([[((0, 1, 1) : Face)]] ≠ ([] : List (List Face))) ∧
      smallOrig = List.replicate 80 0 ++ segsTail [[((0, 1, 1) : Face)]] ++ [] ∧
      smallSub.tris.1 = (List.replicate 80 0 : List Nat).length ∧
      smallSub.tris.2 = (List.replicate 80 0 : List Nat).length +
        (segsTail [[((0, 1, 1) : Face)]]).length ∧
      GoodSegs (smallSub.verts.2 - smallSub.verts.1) 0 [[((0, 1, 1) : Face)]]) ∧
    ((unpackBin smallSub smallOrig =
        some (pieceNodes smallSub.node 0 [[((0, 1, 1) : Face)]],
          pieceBytes smallOrig smallSub.verts.1 0 [[((0, 1, 1) : Face)]])) ∧
      unpackBin scenSub scenOrig =
        some ([setMeshVI scenNode 10 3, setMeshVI scenNode 15 3],
          List.replicate 400 0 ++ encFace (0, 1, 9) ++
            (List.replicate 600 0 ++ encFace (0, 1, 14)))) :=
  ⟨⟨by decide, by decide, by decide, by decide, by decide⟩,
    unpack_pieces smallSub smallOrig [[((0, 1, 1) : Face)]] (List.replicate 80 0) []
      (by decide) (by decide) (by decide) (by decide) (by decide)⟩

/-- C7: one loop iteration of binary-mode `pack` on a subset that does not
trigger a flush (the running offset plus its vertex count stays below the
ceiling): at offset 0 the triangle region is copied verbatim; at a positive
offset exactly one separator is prepended and every face is re-encoded with
all three indices increased by the offset; either way the vertex bytes are
appended and the offset advances by the subset's vertex count. -/
theorem packStep_tail (first : Element) (orig : List Nat) (st : PackSt) (sub : SubsetB)
    (hflush : st.off + nvOf sub < 32768)
    (hdec : iterUnpack (tbytes orig sub) = some (decTris orig sub))
    (hbnd : ∀ f ∈ decTris orig sub, f.1 + st.off < 65536 ∧ f.2.1 + st.off < 65536 ∧
      f.2.2 + st.off < 65536) :
    (st.off = 0 →
      packStepBin first orig st sub =
        .ok { st with vdata := st.vdata ++ vbytes orig sub,
                      tdata := st.tdata ++ tbytes orig sub,
                      off := st.off + nvOf sub }) ∧
    (0 < st.off →
      packStepBin first orig st sub =
        .ok { st with vdata := st.vdata ++ vbytes orig sub,
                      tdata := st.tdata ++ SEP ++
                        encAll ((decTris orig sub).map (shiftFace st.off)),
                      off := st.off + nvOf sub }) :=
  ⟨fun hz => packStepBin_zero first orig st sub hz (by omega),
   fun hpos => packStepBin_pos first orig st sub hpos hflush hdec hbnd⟩

set_option maxRecDepth 40000 in
/-- Witness for C7: one step over `smallOrig` from offset 1. -/
theorem packStep_tail_instance :
    ((⟨1, [], [], [], []⟩ : PackSt).off + nvOf smallSub < 32768 ∧
      iterUnpack (tbytes smallOrig smallSub) = some (decTris smallOrig smallSub) ∧
      (∀ f ∈ decTris smallOrig smallSub,
        f.1 + (⟨1, [], [], [], []⟩ : PackSt).off < 65536 ∧
        f.2.1 + (⟨1, [], [], [], []⟩ : PackSt).off < 65536 ∧
        f.2.2 + (⟨1, [], [], [], []⟩ : PackSt).off < 65536)) ∧
    (((⟨1, [], [], [], []⟩ : PackSt).off = 0 →
      packStepBin fixNodeA smallOrig ⟨1, [], [], [], []⟩ smallSub =
        .ok { (⟨1, [], [], [], []⟩ : PackSt) with
              vdata := (⟨1, [], [], [], []⟩ : PackSt).vdata ++ vbytes smallOrig smallSub
              tdata := (⟨1, [], [], [], []⟩ : PackSt).tdata ++ tbytes smallOrig smallSub
              off := (⟨1, [], [], [], []⟩ : PackSt).off + nvOf smallSub }) ∧
     (0 < (⟨1, [], [], [], []⟩ : PackSt).off →
      packStepBin fixNodeA smallOrig ⟨1, [], [], [], []⟩ smallSub =
        .ok { (⟨1, [], [], [], []⟩ : PackSt) with
              vdata := (⟨1, [], [], [], []⟩ : PackSt).vdata ++ vbytes smallOrig smallSub
              tdata := (⟨1, [], [], [], []⟩ : PackSt).tdata ++ SEP ++
                encAll ((decTris smallOrig smallSub).map
                  (shiftFace (⟨1, [], [], [], []⟩ : PackSt).off))
              off := (⟨1, [], [], [], []⟩ : PackSt).off + nvOf smallSub })) :=
  ⟨⟨by decide, by decide, by decide⟩,
    packStep_tail fixNodeA smallOrig ⟨1, [], [], [], []⟩ smallSub (by decide) (by decide)
      (by decide)⟩

/-- C8: the grouping key is a pure function of the subset subtree that sorts
the attributes first: permuting the attribute list never changes the key,
while swapping two distinct non-geometry children does change it —
order-insensitive over attributes, order-sensitive over children. -/
theorem key_attr_insensitive_child_sensitive (tag : String)
    (a1 a2 : List (String × String)) (ch : List Element) (hperm : a1.Perm a2) :
    calcSubsetKey (.mk tag a1 ch) = calcSubsetKey (.mk tag a2 ch) ∧
    calcSubsetKey (.mk "SubSet" [] [.mk "A" [] [], .mk "B" [] []]) ≠
      calcSubsetKey (.mk "SubSet" [] [.mk "B" [] [], .mk "A" [] []]) := by
  constructor
  · show attribKey (sortPairs a1) ++ childrenKey ch =
      attribKey (sortPairs a2) ++ childrenKey ch
    rw [sortPairs_eq_of_perm hperm]
  · decide

/-- Witness for C8: a two-attribute swap. -/
theorem key_attr_insensitive_instance :
    ([("b", "2"), ("a", "1")] : List (String × String)).Perm [("a", "1"), ("b", "2")] ∧
    (calcSubsetKey (.mk "S" [("b", "2"), ("a", "1")] []) =
       calcSubsetKey (.mk "S" [("a", "1"), ("b", "2")] []) ∧
     calcSubsetKey (.mk "SubSet" [] [.mk "A" [] [], .mk "B" [] []]) ≠
       calcSubsetKey (.mk "SubSet" [] [.mk "B" [] [], .mk "A" [] []])) :=
  ⟨List.Perm.swap ("a", "1") ("b", "2") [],
    key_attr_insensitive_child_sensitive "S" [("b", "2"), ("a", "1")]
      [("a", "1"), ("b", "2")] [] (List.Perm.swap ("a", "1") ("b", "2") [])⟩

/-- C9 (amended): whenever the binary geometry buffer is present and
*nonempty* and its length differs from the declared total
`40 × Σ MeshV + 2 × Σ MeshI`, the whole file's transform aborts before any
output.  The amendment over the spec's sentence: the source guards the check
with Python truthiness (`if lsb_data:`), so a present but *empty* buffer
skips it entirely — see the counterexample. -/
theorem mainBinary_length_guard (isPack : Bool) (nodes : List Element) (lsb : List Nat)
    (subs : List SubsetB) (total : Nat)
    (hlsb : lsb ≠ []) (hbs : buildSubsets nodes 0 = some (subs, total))
    (hmm : total ≠ lsb.length) :
    mainBinary isPack nodes lsb = none := by
  rw [mainBinary]
  by_cases hn : nodes = []
  · rw [if_pos hn]
  · rw [if_neg hn, hbs]
    show (if lsb ≠ [] ∧ total ≠ lsb.length then none
      else match transformGroups isPack lsb (groupByKey subs) with
        | none => none
        | some (newNodes, newData) =>
            match totalSpan newNodes with
            | none => none
            | some t => if newData.length = t then some (newNodes, newData) else none) = none
    rw [if_pos ⟨hlsb, hmm⟩]

/-- Witness for C9: a 1-byte buffer against a 40-byte declaration aborts. -/
theorem mainBinary_length_guard_instance :
    (([0] : List Nat) ≠ [] ∧
      buildSubsets [n40] 0 = some ([⟨n40, (0, 40), (40, 40)⟩], 40) ∧
      (40 : Nat) ≠ ([0] : List Nat).length) ∧
    mainBinary true [n40] [0] = none :=
  ⟨⟨by decide, by decide, by decide⟩,
    mainBinary_length_guard true [n40] [0] [⟨n40, (0, 40), (40, 40)⟩] 40 (by decide)
      (by decide) (by decide)⟩

/-- Counterexample for C9 as the spec states it: two descriptors declare 80
bytes in total, the buffer is present but empty (length 0 ≠ 80), and yet the
transform does not abort — it runs through and is accepted, because
`if lsb_data:` is false for an empty byte string. -/
theorem empty_buffer_skips_check :
    buildSubsets [n40, n40] 0 =
      some ([⟨n40, (0, 40), (40, 40)⟩, ⟨n40, (40, 80), (80, 80)⟩], 80) ∧
    (80 : Nat) ≠ ([] : List Nat).length ∧
    mainBinary true [n40, n40] [] = some ([setMeshVI n40 0 3], SEP) := by
  decide

/-- C10: in the bufferless (inline) mode, a pack step at a nonzero
vertex-index offset succeeds and rewrites the heap in place: every `Face`
element object listed for the subset has its parsed `i` triple replaced by
the old triple shifted up by the offset, every other live object (apart from
the freshly allocated separator copy) is untouched, and the very same object
ids — now mutated — are appended to the output triangle accumulator after
the fresh separator id: the input descriptor tree is mutated, not transformed
purely. -/
theorem packStepXml_mutates (first : Element) (s : PackStX) (sub : SubsetX)
    (hnodup : sub.tris.Nodup) (hoff : s.off ≠ 0)
    (hceil : s.off + sub.verts.length < 32768) :
    ∃ s', packStepXml first s sub = .ok s' ∧
      (∀ i ∈ sub.tris, i ≠ s.fresh → s'.heap i = shiftFace s.off (s.heap i)) ∧
      (∀ i, i ∉ sub.tris → i ≠ s.fresh → s'.heap i = s.heap i) ∧
      s'.tdata = s.tdata ++ s.fresh :: sub.tris ∧
      s'.off = s.off + sub.verts.length := by
  have hstep : packStepXml first s sub = .ok
      { heap := heapSet (heapShiftAll s.heap sub.tris s.off) s.fresh (0, 0, 0)
        fresh := s.fresh + 1
        off := s.off + sub.verts.length
        vdata := s.vdata ++ sub.verts
        tdata := s.tdata ++ s.fresh :: sub.tris
        outs := s.outs } := by
    rw [packStepXml]
    simp only [if_neg (show ¬32768 ≤ s.off + sub.verts.length from by omega)]
    rw [if_neg hoff]
  refine ⟨_, hstep, ?_, ?_, rfl, rfl⟩
  · intro i hi hne
    show heapSet (heapShiftAll s.heap sub.tris s.off) s.fresh (0, 0, 0) i =
      shiftFace s.off (s.heap i)
    rw [heapSet, if_neg hne, heapShiftAll_mem sub.tris s.heap s.off i hnodup hi]
  · intro i hni hne
    show heapSet (heapShiftAll s.heap sub.tris s.off) s.fresh (0, 0, 0) i = s.heap i
    rw [heapSet, if_neg hne, heapShiftAll_not_mem sub.tris s.heap s.off i hni]

/-- Witness for C10: a step over a two-face subset at offset 3. -/
theorem packStepXml_mutates_instance :
    (([0, 1] : List Nat).Nodup ∧
      (⟨fun _ => (1, 2, 3), 5, 3, [], [], []⟩ : PackStX).off ≠ 0 ∧
      (⟨fun _ => (1, 2, 3), 5, 3, [], [], []⟩ : PackStX).off +
        ([10, 11] : List Nat).length < 32768) ∧
    (∃ s', packStepXml fixNodeA ⟨fun _ => (1, 2, 3), 5, 3, [], [], []⟩
        ⟨fixNodeA, [10, 11], [0, 1]⟩ = .ok s' ∧
      (∀ i ∈ ([0, 1] : List Nat), i ≠ 5 →
        s'.heap i = shiftFace 3 ((fun _ => ((1, 2, 3) : Face)) i)) ∧
      (∀ i, i ∉ ([0, 1] : List Nat) → i ≠ 5 →
        s'.heap i = (fun _ => ((1, 2, 3) : Face)) i) ∧
      s'.tdata = [] ++ 5 :: [0, 1] ∧
      s'.off = 3 + ([10, 11] : List Nat).length) :=
  ⟨⟨by decide, by decide, by decide⟩,
    packStepXml_mutates fixNodeA ⟨fun _ => (1, 2, 3), 5, 3, [], [], []⟩
      ⟨fixNodeA, [10, 11], [0, 1]⟩ (by decide) (by decide) (by decide)⟩

end SZ
